import Mathlib

/-!
Verification development for the scmdata timeseries container
(src/scmdata/run.py, src/scmdata/netcdf.py, src/scmdata/database.py).

The data model is embedded shallowly:

* a time point is represented by its (integer) year value -- every claim
  under study uses year-valued time axes, so sub-year resolution is dropped;
* a metadata value is a string, an integer or NaN (missing);
* a timeseries value is `Option Rat` with `none` playing the role of NaN;
* a `TimeSeries` carries its own time coordinates, mirroring the Python
  `TimeSeries` objects that own an xarray coordinate;
* an `ScmRun` is a time axis plus a list of timeseries.

Fallible Python code (raising `ValueError` etc.) is embedded with
`Except String`.  Error message strings are abbreviated to their leading
words where the original text contains characters outside the fragment
used in this file; each such abbreviation keeps the part of the message
the claims talk about (in particular the offending column name).
-/

/-- Metadata value: string, integer or NaN (a missing entry in the pandas
metadata table). -/
inductive MVal where
  | str (s : String)
  | int (n : Int)
  | nan
deriving DecidableEq

/-- Metadata of one timeseries: an association list from column name to
value, mirroring the `meta` dict of a Python `TimeSeries`. -/
abbrev Meta := List (String × MVal)

/-- Look a column up in a metadata mapping; a missing key is NaN, exactly as
pandas fills missing entries of the derived metadata table with NaN
(`ScmRun._meta_column`). -/
def metaLookup (m : Meta) (col : String) : MVal :=
  match m.lookup col with
  | some v => v
  | none => MVal.nan

/-- First-occurrence deduplication, the order `pandas.Series.unique`
returns distinct values in. -/
def dedupFirst {α : Type _} [DecidableEq α] : List α → List α
  | [] => []
  | x :: xs => x :: (dedupFirst xs).filter (fun y => y ≠ x)

/-- Insert into a list so that a sorted list stays sorted with respect to
the boolean comparison `le`. -/
def insertLe {α : Type _} (le : α → α → Bool) (x : α) : List α → List α
  | [] => [x]
  | y :: ys => if le x y then x :: y :: ys else y :: insertLe le x ys

/-- Insertion sort with respect to the boolean comparison `le`. -/
def sortLe {α : Type _} (le : α → α → Bool) (l : List α) : List α :=
  l.foldr (insertLe le) []

/-- Lexicographic comparison of character lists by code point, the order
Python `sorted` uses on strings. -/
def lexLeChars : List Char → List Char → Bool
  | [], _ => true
  | _ :: _, [] => false
  | x :: xs, y :: ys =>
    if x.toNat < y.toNat then true
    else if x.toNat = y.toNat then lexLeChars xs ys
    else false

/-- Lexicographic string comparison by code point. -/
def strLe (a b : String) : Bool := lexLeChars a.data b.data

/-- One timeseries: a name (the positional index given at construction),
its metadata, its own time coordinates and its values (`none` = NaN). -/
structure TimeSeries where
  name : Nat
  meta : Meta
  times : List Int
  values : List (Option Rat)
deriving DecidableEq

/-- The container: a shared time axis plus a list of timeseries
(`ScmRun` in src/scmdata/run.py).  The container invariant that every
member timeseries has `times = time_points` is carried as a hypothesis by
the theorems that need it. -/
structure ScmRun where
  time_points : List Int
  ts : List TimeSeries
deriving DecidableEq

namespace ScmRun

/-- Sorted list of all metadata keys occurring in the container
(`ScmRun.meta_attributes`).  First-occurrence deduplication followed by a
sort, as `sorted(list(set(meta)))` produces a sorted duplicate-free list. -/
def meta_attributes (r : ScmRun) : List String :=
  sortLe strLe (dedupFirst (r.ts.flatMap (fun t => t.meta.map Prod.fst)))

/-- Per-series vector of one metadata column (`ScmRun._meta_column`):
missing keys become NaN. -/
def meta_column (r : ScmRun) (col : String) : List MVal :=
  r.ts.map (fun t => metaLookup t.meta col)

end ScmRun

section ListHelpers

variable {α : Type _}

/-- Boolean-mask selection, `lst[mask]` on a numpy boolean array. -/
def selectMask (l : List α) (mask : List Bool) : List α :=
  ((l.zip mask).filter (fun p => p.2)).map Prod.fst

theorem selectMask_nil (mask : List Bool) : selectMask ([] : List α) mask = [] := by
  simp [selectMask]

theorem selectMask_cons (a : α) (l : List α) (b : Bool) (mask : List Bool) :
    selectMask (a :: l) (b :: mask) =
      if b then a :: selectMask l mask else selectMask l mask := by
  cases b
  · simp [selectMask]
  · simp [selectMask]

/-- Number of `true` entries of a boolean mask. -/
def countTrue (mask : List Bool) : Nat := (mask.filter id).length

theorem countTrue_nil : countTrue [] = 0 := rfl

theorem countTrue_cons (b : Bool) (mask : List Bool) :
    countTrue (b :: mask) = (if b then 1 else 0) + countTrue mask := by
  cases b <;> simp [countTrue, List.filter, Nat.add_comm]

/-- Selecting with a mask keeps as many elements as the mask has `true`
entries (when the mask is at least as long as the list is irrelevant here:
we use equal lengths). -/
theorem length_selectMask : ∀ (l : List α) (mask : List Bool),
    l.length = mask.length → (selectMask l mask).length = countTrue mask := by
  intro l
  induction l with
  | nil =>
    intro mask h
    cases mask with
    | nil => rfl
    | cons b m => simp at h
  | cons a l ih =>
    intro mask h
    cases mask with
    | nil => simp at h
    | cons b m =>
      have hl : l.length = m.length := by simpa using h
      rw [selectMask_cons, countTrue_cons]
      cases b with
      | false => simpa using ih m hl
      | true => simp [ih m hl]; omega

theorem countTrue_not (mask : List Bool) :
    countTrue (mask.map (fun b => !b)) = mask.length - countTrue mask := by
  induction mask with
  | nil => rfl
  | cons b m ih =>
    rw [List.map_cons, countTrue_cons, countTrue_cons, ih]
    have hle : countTrue m ≤ m.length := by
      simpa [countTrue] using List.length_filter_le id m
    cases b <;> simp <;> omega

theorem countTrue_le_length (mask : List Bool) : countTrue mask ≤ mask.length := by
  simpa [countTrue] using List.length_filter_le id mask

/-- A mask that is `true` everywhere selects everything. -/
theorem selectMask_all_true : ∀ (l : List α) (mask : List Bool),
    (∀ b ∈ mask, b = true) → l.length = mask.length → selectMask l mask = l := by
  intro l
  induction l with
  | nil => intro mask _ _; exact selectMask_nil mask
  | cons a l ih =>
    intro mask h hlen
    cases mask with
    | nil => simp at hlen
    | cons b m =>
      have hb : b = true := h b (by simp)
      subst hb
      rw [selectMask_cons, if_pos rfl,
        ih m (fun x hx => h x (by simp [hx])) (by simpa using hlen)]

/-- A mask with no `true` entry selects nothing. -/
theorem selectMask_all_false : ∀ (l : List α) (mask : List Bool),
    (∀ b ∈ mask, b = false) → selectMask l mask = [] := by
  intro l
  induction l with
  | nil => intro mask _; exact selectMask_nil mask
  | cons a l ih =>
    intro mask h
    cases mask with
    | nil => rfl
    | cons b m =>
      have hb : b = false := h b (by simp)
      subst hb
      rw [selectMask_cons]
      simpa using ih m (fun x hx => h x (by simp [hx]))

end ListHelpers

/-- Boolean AND of two masks (the `&=` accumulation in
`ScmRun._apply_filters`). -/
def andMask (a b : List Bool) : List Bool := a.zipWith (fun x y => x && y) b

/-- Embedding of `ScmRun._apply_filters`: every metadata predicate
(`pattern_match` on a metadata column, or the `level` depth filter)
contributes one boolean mask over the series list, every time-component
predicate (`year`/`month`/`day`/`hour`/`time`) contributes one boolean mask
over the time axis; the masks of one kind are AND-folded starting from the
all-`true` mask.  The per-predicate masks are parameters because
`pattern_match` and friends live in `scmdata.filters`, which is external to
the container logic under study; a filter whose predicates apply only to
metadata columns is one with `timeMasks = []`. -/
def ScmRun.apply_filters (r : ScmRun) (metaMasks timeMasks : List (List Bool)) :
    List Bool × List Bool :=
  (timeMasks.foldl andMask (List.replicate r.time_points.length true),
    metaMasks.foldl andMask (List.replicate r.ts.length true))

/-- Restrict a timeseries to the time points selected by a boolean mask
(`ts[_keep_times]`). -/
def TimeSeries.maskTimes (t : TimeSeries) (mask : List Bool) : TimeSeries :=
  { t with times := selectMask t.times mask, values := selectMask t.values mask }

/-- Embedding of `ScmRun.filter` (src/scmdata/run.py, lines 577-670) given
the two boolean masks computed by `_apply_filters`: `keepTimes` marks time
points to keep and `keepCols` marks timeseries to keep.  Mirrors the
source: the `keep=False` dual-axis `ValueError`, the mask inversion, the
drop-everything fallback when nothing was filtered, then column selection
followed by time selection. -/
def ScmRun.filterMasks (r : ScmRun) (keep : Bool)
    (keepTimes keepCols : List Bool) : Except String ScmRun :=
  if keep = false ∧ keepCols.any (fun b => !b) ∧ keepTimes.any (fun b => !b) then
    Except.error
      "If keep=False, filtering cannot be performed on temporally and with metadata at the same time"
  else
    let reduceTimes := keepTimes.any (fun b => !b)
    let reduceCols0 := keepCols.any (fun b => !b)
    let keepTimes1 := if keep then keepTimes else keepTimes.map (fun b => !b)
    let keepCols1 := if keep then keepCols else keepCols.map (fun b => !b)
    let reduceCols := if !keep && !reduceCols0 && !reduceTimes then true else reduceCols0
    let ts1 := if reduceCols then selectMask r.ts keepCols1 else r.ts
    let ts2 := if reduceTimes then ts1.map (fun t => t.maskTimes keepTimes1) else ts1
    let tp := if reduceTimes then selectMask r.time_points keepTimes1 else r.time_points
    Except.ok { time_points := tp, ts := ts2 }

/-- `ScmRun.filter`: computes the masks from the per-predicate masks via
`apply_filters` and applies them, exactly as the source method does. -/
def ScmRun.filter (r : ScmRun) (keep : Bool)
    (metaMasks timeMasks : List (List Bool)) : Except String ScmRun :=
  let masks := r.apply_filters metaMasks timeMasks
  r.filterMasks keep masks.1 masks.2

theorem length_andMask (a b : List Bool) :
    (andMask a b).length = min a.length b.length := by
  simp [andMask]

theorem length_foldl_andMask : ∀ (masks : List (List Bool)) (init : List Bool),
    (∀ m ∈ masks, m.length = init.length) →
    (masks.foldl andMask init).length = init.length := by
  intro masks
  induction masks with
  | nil => intro init _; rfl
  | cons m ms ih =>
    intro init h
    have hm : m.length = init.length := h m (by simp)
    have hstep : (andMask init m).length = init.length := by
      rw [length_andMask, hm]; omega
    rw [List.foldl_cons]
    rw [ih (andMask init m) (fun x hx => by rw [hstep]; exact h x (by simp [hx]))]
    exact hstep

theorem any_not_replicate_true (n : Nat) :
    (List.replicate n true).any (fun b => !b) = false := by
  induction n with
  | zero => rfl
  | succ k ih => simp [List.replicate_succ, ih]

theorem countTrue_eq_length_of_all_true (mask : List Bool)
    (h : ∀ b ∈ mask, b = true) : countTrue mask = mask.length := by
  induction mask with
  | nil => rfl
  | cons b m ih =>
    have hb : b = true := h b (by simp)
    subst hb
    rw [countTrue_cons, ih (fun x hx => h x (by simp [hx]))]
    simp [Nat.add_comm]

theorem all_false_of_any_not_eq_false (mask : List Bool)
    (h : mask.any (fun b => !b) = false) : ∀ b ∈ mask, b = true := by
  intro b hb
  by_contra hcon
  have : mask.any (fun b => !b) = true := by
    refine List.any_eq_true.mpr ⟨b, hb, ?_⟩
    cases b
    · rfl
    · exact absurd rfl hcon
  rw [this] at h
  exact Bool.true_eq_false.mp h

/-- Sample metadata row for the spec §8 concrete scenario (Primary Energy). -/
def metaPE : Meta :=
  [("model", MVal.str "a_iam"), ("scenario", MVal.str "a_scenario"),
   ("region", MVal.str "World"), ("variable", MVal.str "Primary Energy"),
   ("unit", MVal.str "EJ/yr")]

/-- Sample metadata row (Primary Energy|Coal). -/
def metaCoal : Meta :=
  [("model", MVal.str "a_iam"), ("scenario", MVal.str "a_scenario"),
   ("region", MVal.str "World"), ("variable", MVal.str "Primary Energy|Coal"),
   ("unit", MVal.str "EJ/yr")]

/-- Sample container with two timeseries over years 2005/2010/2015. -/
def sampleRun : ScmRun :=
  { time_points := [2005, 2010, 2015],
    ts := [
      { name := 0, meta := metaPE, times := [2005, 2010, 2015],
        values := [some 1, some 6, some 6] },
      { name := 1, meta := metaCoal, times := [2005, 2010, 2015],
        values := [some 1, some 3, some 2] }] }

/-- C1: for metadata-only predicates (no time-component masks), the series
kept by `filter(keep=True)` and the series kept by `filter(keep=False)`
partition the container: their counts add up to the original count.  This
also covers the code path where the predicates match everything
(`keep=False` then drops everything) and where they match nothing. -/
theorem filter_metadata_partition (r : ScmRun) (metaMasks : List (List Bool))
    (hmm : ∀ m ∈ metaMasks, m.length = r.ts.length) :
    ∃ rKeep rDrop,
      r.filter true metaMasks [] = Except.ok rKeep ∧
      r.filter false metaMasks [] = Except.ok rDrop ∧
      rKeep.ts.length + rDrop.ts.length = r.ts.length := by
  have hkc : (metaMasks.foldl andMask (List.replicate r.ts.length true)).length
      = r.ts.length := by
    have := length_foldl_andMask metaMasks (List.replicate r.ts.length true)
      (fun m hm => by simpa using hmm m hm)
    simpa using this
  set kc := metaMasks.foldl andMask (List.replicate r.ts.length true) with hkcdef
  have hkt : (List.replicate r.time_points.length true).any (fun b => !b) = false :=
    any_not_replicate_true _
  refine ⟨⟨r.time_points, selectMask r.ts kc⟩,
    ⟨r.time_points, selectMask r.ts (kc.map (fun b => !b))⟩, ?_, ?_, ?_⟩
  · simp only [ScmRun.filter, ScmRun.apply_filters, List.foldl_nil, ← hkcdef]
    simp only [ScmRun.filterMasks]
    rw [if_neg (by simp)]
    by_cases hany : kc.any (fun b => !b) = true
    · simp [hkt, hany]
    · have hall : ∀ b ∈ kc, b = true :=
        all_false_of_any_not_eq_false kc (by simpa using hany)
      simp [hkt, hany, selectMask_all_true r.ts kc hall hkc.symm]
  · simp only [ScmRun.filter, ScmRun.apply_filters, List.foldl_nil, ← hkcdef]
    simp only [ScmRun.filterMasks]
    rw [if_neg (by simp [hkt])]
    by_cases hany : kc.any (fun b => !b) = true
    · simp [hkt, hany]
    · simp [hkt, hany]
  · have hdrop : (selectMask r.ts (kc.map (fun b => !b))).length
        = kc.length - countTrue kc := by
      rw [length_selectMask r.ts (kc.map (fun b => !b)) (by simp [hkc]),
        countTrue_not]
    have hkeep : (selectMask r.ts kc).length = countTrue kc :=
      length_selectMask r.ts kc hkc.symm
    simp only [hkeep, hdrop]
    have := countTrue_le_length kc
    omega

/-- C1 witness: the partition property at the sample container with one
metadata mask keeping just the first series. -/
theorem filter_metadata_partition_witness :
    ∃ rKeep rDrop,
      sampleRun.filter true [[true, false]] [] = Except.ok rKeep ∧
      sampleRun.filter false [[true, false]] [] = Except.ok rDrop ∧
      rKeep.ts.length + rDrop.ts.length = sampleRun.ts.length :=
  filter_metadata_partition sampleRun [[true, false]] (by decide)

/-- C4: with `keep=False`, if the metadata predicates would exclude at
least one series and the temporal predicates would exclude at least one
time point, `filter` raises the dual-axis `ValueError`. -/
theorem filter_keep_false_dual_axis_error (r : ScmRun)
    (metaMasks timeMasks : List (List Bool))
    (ht : ((r.apply_filters metaMasks timeMasks).1).any (fun b => !b) = true)
    (hc : ((r.apply_filters metaMasks timeMasks).2).any (fun b => !b) = true) :
    r.filter false metaMasks timeMasks =
      Except.error
        "If keep=False, filtering cannot be performed on temporally and with metadata at the same time" := by
  simp only [ScmRun.filter, ScmRun.filterMasks]
  rw [if_pos ⟨by simp, hc, ht⟩]

/-- C4 witness: at the sample container, dropping one series and one year
with `keep=False` raises. -/
theorem filter_keep_false_dual_axis_error_witness :
    sampleRun.filter false [[true, false]] [[true, true, false]] =
      Except.error
        "If keep=False, filtering cannot be performed on temporally and with metadata at the same time" :=
  filter_keep_false_dual_axis_error sampleRun [[true, false]] [[true, true, false]]
    (by decide) (by decide)

/-- C9: `filter(keep=False)` with predicates that exclude nothing (in
particular, with no predicates at all) drops every series: the container
kept its time axis but has an empty series list. -/
theorem filter_keep_false_nothing_excluded_empty (r : ScmRun)
    (metaMasks timeMasks : List (List Bool))
    (ht : ((r.apply_filters metaMasks timeMasks).1).any (fun b => !b) = false)
    (hc : ((r.apply_filters metaMasks timeMasks).2).any (fun b => !b) = false) :
    r.filter false metaMasks timeMasks =
      Except.ok { time_points := r.time_points, ts := [] } := by
  simp only [ScmRun.filter, ScmRun.filterMasks]
  rw [if_neg (by simp [hc])]
  have hsel : selectMask r.ts
      (((r.apply_filters metaMasks timeMasks).2).map (fun b => !b)) = [] := by
    refine selectMask_all_false _ _ ?_
    intro b hb
    rcases List.mem_map.mp hb with ⟨x, hx, hxb⟩
    have hxt : x = true :=
      all_false_of_any_not_eq_false _ (by simpa using hc) x hx
    rw [← hxb, hxt]
    rfl
  simp [ht, hc, hsel]

/-- C9 witness: the no-predicates call (`filter(keep=False)`) on the sample
container returns an empty container. -/
theorem filter_keep_false_nothing_excluded_empty_witness :
    sampleRun.filter false [] [] =
      Except.ok { time_points := sampleRun.time_points, ts := [] } :=
  filter_keep_false_nothing_excluded_empty sampleRun [] [] (by decide) (by decide)

theorem mem_dedupFirst {α : Type _} [DecidableEq α] (x : α) :
    ∀ (l : List α), x ∈ dedupFirst l ↔ x ∈ l := by
  intro l
  induction l with
  | nil => simp [dedupFirst]
  | cons a l ih =>
    by_cases hxa : x = a
    · subst hxa
      simp [dedupFirst]
    · simp only [dedupFirst, List.mem_cons, List.mem_filter, ih]
      constructor
      · rintro (h | ⟨h, _⟩)
        · exact Or.inl h
        · exact Or.inr h
      · rintro (h | h)
        · exact Or.inl h
        · exact Or.inr ⟨h, by simpa using hxa⟩

theorem dedupFirst_nodup {α : Type _} [DecidableEq α] :
    ∀ (l : List α), (dedupFirst l).Nodup := by
  intro l
  induction l with
  | nil => simp [dedupFirst]
  | cons a l ih =>
    refine List.Nodup.cons ?_ (List.Nodup.filter _ ih)
    intro hmem
    rcases List.mem_filter.mp hmem with ⟨_, hne⟩
    simp at hne

theorem dedupFirst_eq_self_of_nodup {α : Type _} [DecidableEq α] :
    ∀ (l : List α), l.Nodup → dedupFirst l = l := by
  intro l
  induction l with
  | nil => intro _; rfl
  | cons a l ih =>
    intro h
    rcases List.nodup_cons.mp h with ⟨ha, hl⟩
    have : dedupFirst l = l := ih hl
    simp only [dedupFirst, this]
    rw [List.filter_eq_self.mpr]
    intro x hx
    have : x ≠ a := fun hxa => ha (hxa ▸ hx)
    simpa using this

/-- Direct item access, `ScmRun.__getitem__` for a single key: `time` and
`year` yield the time axis (identified in this embedding, where a time
point is its year), a metadata key yields the per-series column, anything
else is a `KeyError`. -/
def ScmRun.getItem (r : ScmRun) (key : String) : Except String (List MVal) :=
  if key = "time" then Except.ok (r.time_points.map MVal.int)
  else if key = "year" then Except.ok (r.time_points.map MVal.int)
  else if key ∈ r.meta_attributes then Except.ok (r.meta_column key)
  else Except.error ("I do not know what to do with key: " ++ key)

/-- Result of `get_unique_meta`: a list of distinct values, or (with
`no_duplicates=True`) the single value itself. -/
inductive UniqueResult where
  | vals (l : List MVal)
  | single (v : MVal)
deriving DecidableEq

/-- Embedding of `ScmRun.get_unique_meta` (src/scmdata/run.py, lines
914-950): take the distinct values of the column; with
`no_duplicates=True` raise a `ValueError` naming the column unless there
is exactly one distinct value, in which case that value itself (not a
list) is returned.  The error text is abbreviated to its first words; the
source message also interpolates the list of found values. -/
def ScmRun.get_unique_meta (r : ScmRun) (meta : String) (no_duplicates : Bool) :
    Except String UniqueResult :=
  match r.getItem meta with
  | Except.error e => Except.error e
  | Except.ok raw =>
    let vals := dedupFirst raw
    if no_duplicates then
      if vals.length ≠ 1 then
        Except.error ("`" ++ meta ++ "` column is not unique")
      else Except.ok (UniqueResult.single (vals.headD MVal.nan))
    else Except.ok (UniqueResult.vals vals)

/-- C7: `get_unique_meta(col, no_duplicates=True)` raises a `ValueError`
naming `col` exactly when the column does not have exactly one distinct
value; with exactly one distinct value it returns that value itself (the
value every series carries); `no_duplicates=False` returns the distinct
values as a list without error. -/
theorem get_unique_meta_spec (r : ScmRun) (col : String)
    (h1 : col ≠ "time") (h2 : col ≠ "year") (h3 : col ∈ r.meta_attributes) :
    (r.get_unique_meta col false =
      Except.ok (UniqueResult.vals (dedupFirst (r.meta_column col)))) ∧
    ((dedupFirst (r.meta_column col)).length = 1 →
      r.get_unique_meta col true =
        Except.ok (UniqueResult.single ((dedupFirst (r.meta_column col)).headD MVal.nan)) ∧
      ∀ x ∈ r.meta_column col, x = (dedupFirst (r.meta_column col)).headD MVal.nan) ∧
    ((dedupFirst (r.meta_column col)).length ≠ 1 →
      r.get_unique_meta col true =
        Except.error ("`" ++ col ++ "` column is not unique")) := by
  have hitem : r.getItem col = Except.ok (r.meta_column col) := by
    simp [ScmRun.getItem, h1, h2, h3]
  refine ⟨?_, ?_, ?_⟩
  · simp [ScmRun.get_unique_meta, hitem]
  · intro hlen
    constructor
    · simp [ScmRun.get_unique_meta, hitem, hlen]
    · intro x hx
      rcases List.length_eq_one.mp hlen with ⟨v, hv⟩
      have : x ∈ dedupFirst (r.meta_column col) := (mem_dedupFirst x _).mpr hx
      rw [hv] at this ⊢
      simpa using this
  · intro hlen
    simp [ScmRun.get_unique_meta, hitem, hlen]

/-- C7 witness: the `scenario` column of the sample container has the
single distinct value `a_scenario`. -/
theorem get_unique_meta_spec_witness :
    (sampleRun.get_unique_meta "scenario" false =
      Except.ok (UniqueResult.vals (dedupFirst (sampleRun.meta_column "scenario")))) ∧
    ((dedupFirst (sampleRun.meta_column "scenario")).length = 1 →
      sampleRun.get_unique_meta "scenario" true =
        Except.ok (UniqueResult.single
          ((dedupFirst (sampleRun.meta_column "scenario")).headD MVal.nan)) ∧
      ∀ x ∈ sampleRun.meta_column "scenario",
        x = (dedupFirst (sampleRun.meta_column "scenario")).headD MVal.nan) ∧
    ((dedupFirst (sampleRun.meta_column "scenario")).length ≠ 1 →
      sampleRun.get_unique_meta "scenario" true =
        Except.error ("`" ++ "scenario" ++ "` column is not unique")) :=
  get_unique_meta_spec sampleRun "scenario" (by decide) (by decide) (by decide)

/-- Integer comparison as a boolean, for `sortLe`. -/
def intLe (a b : Int) : Bool := decide (a ≤ b)

/-- `np.unique` on a concatenated time axis: sorted, deduplicated values. -/
def sortedUnique (l : List Int) : List Int := sortLe intLe (dedupFirst l)

/-- Does a list contain a duplicated element?  (`meta.duplicated().any()`
on the metadata rows.) -/
def hasDup {α : Type _} [DecidableEq α] : List α → Bool
  | [] => false
  | x :: xs => decide (x ∈ xs) || hasDup xs

/-- Modelled from the spec: `TimeSeries.reindex` lives in
`scmdata.timeseries`, which is not under src/.  Spec section 4.5 step 2:
on the union axis a series keeps its value at time points of its original
domain and is expanded with NaN outside it. -/
def TimeSeries.reindex (t : TimeSeries) (newT : List Int) : TimeSeries :=
  { t with
    times := newT
    values := newT.map (fun x => ((t.times.zip t.values).lookup x).getD none) }

/-- Mean of the non-NaN entries of a column; NaN when all entries are NaN
(spec section 4.5, average-merge semantics). -/
def colMean (vs : List (Option Rat)) : Option Rat :=
  let xs := vs.reduceOption
  if xs.isEmpty then none else some (xs.sum / (xs.length : Rat))

/-- Pointwise `colMean` over `n` time columns of several value rows. -/
def meanValues (n : Nat) (vss : List (List (Option Rat))) : List (Option Rat) :=
  (List.range n).map (fun k => colMean (vss.map (fun vs => (vs.get? k).join)))

/-- Modelled from the spec: `groupby(meta_attributes).mean(axis=0)` lives
in `scmdata.groupby`, which is not under src/.  Spec sections 4.4/4.5: the
series are grouped by identical metadata and averaged per time point,
ignoring NaN contributors, NaN when all contributors are NaN.  Groups keep
the first member's name. -/
def groupMeanTS (n : Nat) (newT : List Int) (l : List TimeSeries) : List TimeSeries :=
  (dedupFirst (l.map (fun t => t.meta))).map (fun m =>
    let grp := l.filter (fun t => t.meta = m)
    { name := ((grp.head?).map (fun t => t.name)).getD 0
      meta := m
      times := newT
      values := meanValues n (grp.map (fun t => t.values)) })

/-- The `contributing_values > 1` test of
`_handle_potential_duplicates_in_append` (src/scmdata/run.py, lines
1568-1572): group all series by their full metadata and ask whether some
group has, at some time point, more than one non-NaN value. -/
def hasContributingDuplicates (n : Nat) (l : List TimeSeries) : Bool :=
  (dedupFirst (l.map (fun t => t.meta))).any (fun m =>
    (List.range n).any (fun k =>
      1 < ((l.filter (fun t => t.meta = m)).filter
        (fun t => ((t.values.get? k).join).isSome)).length))

/-- The `duplicate_msg` argument: a string or a boolean, as in Python. -/
inductive DupMsg where
  | str (s : String)
  | bool (b : Bool)
deriving DecidableEq

/-- Python truthiness of a `duplicate_msg` value: a non-empty string or
`True`. -/
def DupMsg.truthy : DupMsg → Bool
  | DupMsg.str s => !(decide (s = ""))
  | DupMsg.bool b => b

/-- What `df_append` hands back: a run container, or (per the docstring of
`duplicate_msg="return"`) a raw wide table of (metadata, values) rows that
is not a container.  The embedding keeps both constructors so that the
documented "returns a DataFrame" behaviour is statable. -/
inductive AppendResult where
  | run (r : ScmRun)
  | frame (t : List (Meta × List (Option Rat)))
deriving DecidableEq

/-- Result of `df_append` together with the warnings it emitted. -/
structure AppendOut where
  result : AppendResult
  warnings : List String
deriving DecidableEq

/-- First sentence of the duplicate-averaging warning. -/
def duplicateWarnMsg : String :=
  "Duplicate time points detected, the output will be the average of the duplicates."

/-- The warning emitted on the `duplicate_msg="return"` path. -/
def returnWarnMsg : String := "returning a `pd.DataFrame`, not an `ScmRun`"

/-- Embedding of `_handle_potential_duplicates_in_append`
(src/scmdata/run.py, lines 1566-1590).  Returns the optional early-return
value together with the warnings emitted; an unrecognised `duplicate_msg`
is a `ValueError`.  Note the source returns `data` itself -- the `ScmRun`
-- on the "return" path, while warning that it returns a DataFrame. -/
def handle_potential_duplicates_in_append (data : ScmRun) (duplicate_msg : DupMsg) :
    Except String (Option ScmRun × List String) :=
  if !(hasContributingDuplicates data.time_points.length data.ts) then
    Except.ok (none, [])
  else if duplicate_msg = DupMsg.str "warn" then
    Except.ok (none, [duplicateWarnMsg])
  else if duplicate_msg = DupMsg.str "return" then
    Except.ok (some data, [returnWarnMsg])
  else Except.error "Unrecognised value for duplicate_msg"

/-- Comparison of timeseries by name, for the final deterministic sort of
`df_append` (`ret._ts.sort(key=lambda a: a.name)`). -/
def nameLe (a b : TimeSeries) : Bool := decide (a.name ≤ b.name)

/-- Steps 1-2 of `df_append` (src/scmdata/run.py, lines 1527-1549): the
joint container -- the concatenated series lists, on the union time axis
(`np.unique` of all input axes), with every series reindexed onto that
axis when some input axis differs from it. -/
def appendJoint (r0 : ScmRun) (rest : List ScmRun) : ScmRun :=
  let allTs := r0.ts ++ rest.flatMap (fun r => r.ts)
  let newT := sortedUnique ((r0 :: rest).flatMap (fun r => r.time_points))
  let allValid := (r0 :: rest).all (fun r => decide (r.time_points = newT))
  { time_points := if allValid then r0.time_points else newT
    ts := if allValid then allTs else allTs.map (fun t => t.reindex newT) }

/-- The averaging step of `df_append` (src/scmdata/run.py, lines
1557-1560): average the groups of identical metadata and sort the result
by series name. -/
def appendAveraged (j : ScmRun) : ScmRun :=
  { time_points := j.time_points
    ts := sortLe nameLe (groupMeanTS j.time_points.length j.time_points j.ts) }

/-- Embedding of `df_append` (src/scmdata/run.py, lines 1484-1563):
concatenate the series lists, build the union time axis with `np.unique`,
reindex every series onto it when some input has a different axis, then --
if the combined metadata table has duplicated rows -- consult
`_handle_potential_duplicates_in_append` when `duplicate_msg` is truthy
and otherwise (or when it decides to continue) average the groups of
identical metadata; finally sort the series by name.  The result carries
the emitted warnings. -/
def df_append (runs : List ScmRun) (duplicate_msg : DupMsg) :
    Except String AppendOut :=
  match runs with
  | [] => Except.error "list index out of range"
  | r0 :: rest =>
    let ret := appendJoint r0 rest
    if hasDup (ret.ts.map (fun t => t.meta)) then
      if duplicate_msg.truthy then
        match handle_potential_duplicates_in_append ret duplicate_msg with
        | Except.error e => Except.error e
        | Except.ok (some d, w) => Except.ok ⟨AppendResult.run d, w⟩
        | Except.ok (none, w) => Except.ok ⟨AppendResult.run (appendAveraged ret), w⟩
      else
        Except.ok ⟨AppendResult.run (appendAveraged ret), []⟩
    else
      Except.ok ⟨AppendResult.run ⟨ret.time_points, sortLe nameLe ret.ts⟩, []⟩

section DedupLemmas

variable {α : Type _} [DecidableEq α]

theorem dedupFirst_filter (p : α → Bool) :
    ∀ (l : List α), (dedupFirst l).filter p = dedupFirst (l.filter p) := by
  intro l
  induction l with
  | nil => rfl
  | cons a l ih =>
    by_cases hpa : p a = true
    · have lhs : (dedupFirst (a :: l)).filter p
          = a :: ((dedupFirst l).filter p).filter (fun y => decide (y ≠ a)) := by
        simp only [dedupFirst]
        rw [List.filter_cons_of_pos hpa, List.filter_comm]
      have rhs : dedupFirst ((a :: l).filter p)
          = a :: (dedupFirst (l.filter p)).filter (fun y => decide (y ≠ a)) := by
        rw [List.filter_cons_of_pos hpa]
        simp only [dedupFirst]
      rw [lhs, rhs, ih]
    · have hpa' : p a = false := by simpa using hpa
      have lhs : (dedupFirst (a :: l)).filter p
          = ((dedupFirst l).filter p).filter (fun y => decide (y ≠ a)) := by
        simp only [dedupFirst]
        rw [List.filter_cons_of_neg (by simp [hpa']), List.filter_comm]
      rw [lhs, ih, List.filter_cons_of_neg (by simp [hpa'])]
      rw [List.filter_eq_self.mpr]
      intro x hx
      have hxl : x ∈ l.filter p := (mem_dedupFirst x _).mp hx
      have hpx : p x = true := (List.mem_filter.mp hxl).2
      have hxa : x ≠ a := by
        intro he
        rw [he, hpa'] at hpx
        exact Bool.false_ne_true hpx
      simpa using hxa

theorem dedupFirst_append_of_subset :
    ∀ (n : Nat) (l₁ l₂ : List α), l₁.length ≤ n → (∀ x ∈ l₂, x ∈ l₁) →
      dedupFirst (l₁ ++ l₂) = dedupFirst l₁ := by
  intro n
  induction n with
  | zero =>
    intro l₁ l₂ hn hsub
    have h1 : l₁ = [] := List.length_eq_zero.mp (Nat.le_zero.mp hn)
    subst h1
    have h2 : l₂ = [] := by
      cases l₂ with
      | nil => rfl
      | cons x xs => exact absurd (hsub x (by simp)) (by simp)
    subst h2
    rfl
  | succ n ih =>
    intro l₁ l₂ hn hsub
    cases l₁ with
    | nil =>
      have h2 : l₂ = [] := by
        cases l₂ with
        | nil => rfl
        | cons x xs => exact absurd (hsub x (by simp)) (by simp)
      subst h2
      rfl
    | cons a l =>
      have hlen : l.length ≤ n := by simpa using hn
      simp only [List.cons_append, dedupFirst]
      congr 1
      rw [dedupFirst_filter, dedupFirst_filter]
      rw [show (l.append l₂) = l ++ l₂ from rfl, List.filter_append]
      refine ih (l.filter (fun y => y ≠ a)) (l₂.filter (fun y => y ≠ a))
        (le_trans (List.length_filter_le _ l) hlen) ?_
      intro x hx
      rcases List.mem_filter.mp hx with ⟨hxl₂, hxa⟩
      have hxal : x ∈ a :: l := hsub x hxl₂
      have hxne : x ≠ a := by simpa using hxa
      rcases List.mem_cons.mp hxal with h | h
      · exact absurd h hxne
      · exact List.mem_filter.mpr ⟨h, by simpa using hxne⟩

theorem dedupFirst_append_self (l : List α) :
    dedupFirst (l ++ l) = dedupFirst l :=
  dedupFirst_append_of_subset l.length l l (le_refl _) (fun _ h => h)

end DedupLemmas

section SortLeLemmas

variable {α : Type _}

theorem insertLe_perm (le : α → α → Bool) (x : α) :
    ∀ (l : List α), (insertLe le x l).Perm (x :: l) := by
  intro l
  induction l with
  | nil => simp [insertLe]
  | cons y ys ih =>
    by_cases h : le x y = true
    · simp [insertLe, h]
    · have h' : le x y = false := by simpa using h
      simp only [insertLe, h', if_false]
      exact List.Perm.trans (List.Perm.cons y ih) (List.Perm.swap x y ys)

theorem sortLe_perm (le : α → α → Bool) :
    ∀ (l : List α), (sortLe le l).Perm l := by
  intro l
  induction l with
  | nil => simp [sortLe]
  | cons x xs ih =>
    simp only [sortLe, List.foldr_cons]
    exact List.Perm.trans (insertLe_perm le x _) (List.Perm.cons x ih)

theorem insertLe_eq_cons_of_head (le : α → α → Bool) (x : α) (l : List α)
    (h : ∀ y, l.head? = some y → le x y = true) : insertLe le x l = x :: l := by
  cases l with
  | nil => rfl
  | cons y ys => simp [insertLe, h y rfl]

theorem sortLe_eq_self_of_pairwise (le : α → α → Bool) :
    ∀ (l : List α), l.Pairwise (fun a b => le a b = true) → sortLe le l = l := by
  intro l
  induction l with
  | nil => intro _; rfl
  | cons x xs ih =>
    intro h
    rcases List.pairwise_cons.mp h with ⟨hx, hxs⟩
    simp only [sortLe, List.foldr_cons]
    have hrec : sortLe le xs = xs := ih hxs
    simp only [sortLe] at hrec
    rw [hrec]
    refine insertLe_eq_cons_of_head le x xs ?_
    intro y hy
    cases xs with
    | nil => simp at hy
    | cons z zs =>
      have hzy : z = y := by simpa using hy
      subst hzy
      exact hx z (by simp)

end SortLeLemmas

section HasDupLemmas

variable {α : Type _} [DecidableEq α]

theorem hasDup_append_self (l : List α) (h : l ≠ []) :
    hasDup (l ++ l) = true := by
  cases l with
  | nil => exact absurd rfl h
  | cons x xs =>
    simp only [List.cons_append, hasDup, Bool.or_eq_true, decide_eq_true_eq]
    exact Or.inl (by simp)

theorem hasDup_eq_false_of_nodup : ∀ (l : List α), l.Nodup → hasDup l = false := by
  intro l
  induction l with
  | nil => intro _; rfl
  | cons x xs ih =>
    intro h
    rcases List.nodup_cons.mp h with ⟨hx, hxs⟩
    simp [hasDup, hx, ih hxs]

end HasDupLemmas

section FilterNodupLemmas

variable {α : Type _} {β : Type _} [DecidableEq β]

theorem filter_key_eq_nil_of_not_mem (f : α → β) (m : β) :
    ∀ (l : List α), m ∉ l.map f → l.filter (fun u => decide (f u = m)) = [] := by
  intro l
  induction l with
  | nil => intro _; rfl
  | cons x xs ih =>
    intro h
    have hx : f x ≠ m := by
      intro he
      exact h (by simp [← he])
    have hxs : m ∉ xs.map f := by
      intro hc
      exact h (by simp [List.mem_map] at hc ⊢; tauto)
    simp [List.filter_cons, hx, ih hxs]

theorem filter_key_eq_single_of_nodup (f : α → β) :
    ∀ (l : List α), (l.map f).Nodup → ∀ t ∈ l,
      l.filter (fun u => decide (f u = f t)) = [t] := by
  intro l
  induction l with
  | nil => intro _ t ht; simp at ht
  | cons x xs ih =>
    intro h t ht
    rw [List.map_cons] at h
    rcases List.nodup_cons.mp h with ⟨hx, hxs⟩
    rcases List.mem_cons.mp ht with rfl | htl
    · rw [List.filter_cons_of_pos (by simp)]
      rw [filter_key_eq_nil_of_not_mem f (f t) xs hx]
    · have hne : f x ≠ f t := by
        intro he
        exact hx (he ▸ List.mem_map_of_mem f htl)
      rw [List.filter_cons_of_neg (by simpa using hne)]
      exact ih hxs t htl

theorem length_filter_key_le_one_of_nodup (f : α → β) (m : β)
    (l : List α) (h : (l.map f).Nodup) :
    (l.filter (fun u => decide (f u = m))).length ≤ 1 := by
  by_cases hm : m ∈ l.map f
  · rcases List.mem_map.mp hm with ⟨t, htl, hft⟩
    subst hft
    rw [filter_key_eq_single_of_nodup f l h t htl]
    simp
  · rw [filter_key_eq_nil_of_not_mem f m l hm]
    simp

end FilterNodupLemmas

/-- Decidable equality for `Except`, so that concrete runs of the
embedded fallible functions can be checked by `decide`. -/
instance instDecEqExcept {ε α : Type _} [DecidableEq ε] [DecidableEq α] :
    DecidableEq (Except ε α) := fun a b => by
  cases a with
  | error e =>
    cases b with
    | error f =>
      exact decidable_of_iff (e = f) ⟨fun h => by rw [h], fun h => by injection h⟩
    | ok y => exact isFalse (fun h => Except.noConfusion h)
  | ok x =>
    cases b with
    | error f => exact isFalse (fun h => Except.noConfusion h)
    | ok y =>
      exact decidable_of_iff (x = y) ⟨fun h => by rw [h], fun h => by injection h⟩

/-- Metadata row used by the append counterexamples. -/
def metaS2 : Meta :=
  [("model", MVal.str "a_iam"), ("scenario", MVal.str "a_scenario2"),
   ("region", MVal.str "World"), ("variable", MVal.str "Primary Energy"),
   ("unit", MVal.str "EJ/yr")]

/-- One series over 2005/2010/2015. -/
def dupRunA : ScmRun :=
  { time_points := [2005, 2010, 2015],
    ts := [{ name := 0, meta := metaS2, times := [2005, 2010, 2015],
             values := [some 2, some 7, some 7] }] }

/-- The same series shifted to 2020/2030/2040 (disjoint axis, identical
metadata). -/
def dupRunLater : ScmRun :=
  { time_points := [2020, 2030, 2040],
    ts := [{ name := 0, meta := metaS2, times := [2020, 2030, 2040],
             values := [some 2, some 7, some 7] }] }

/-- The same axis as `dupRunA` with doubled values (overlapping non-NaN
duplicates). -/
def dupRunDouble : ScmRun :=
  { time_points := [2005, 2010, 2015],
    ts := [{ name := 0, meta := metaS2, times := [2005, 2010, 2015],
             values := [some 4, some 14, some 14] }] }

/-- C2 (amended): when the joint container has duplicated metadata rows
AND some time point receives more than one non-NaN contribution within one
metadata group, `df_append` dispatches on the duplicate policy: under
"warn" the duplicates are averaged and exactly the averaging warning is
emitted; under "return" averaging is skipped and the joint container
itself (still a run container, not a raw table) is handed back with a
warning; under a falsy policy the values are averaged silently with no
warning (this branch does not even consult the overlap test); any other
policy value -- a non-empty string other than "warn"/"return", or `True`
-- raises the `ValueError`. -/
theorem df_append_duplicate_policy_dispatch (r0 : ScmRun) (rest : List ScmRun)
    (hdup : hasDup ((appendJoint r0 rest).ts.map (fun t => t.meta)) = true)
    (hcon : hasContributingDuplicates (appendJoint r0 rest).time_points.length
      (appendJoint r0 rest).ts = true) :
    df_append (r0 :: rest) (DupMsg.str "warn") =
        Except.ok ⟨AppendResult.run (appendAveraged (appendJoint r0 rest)),
          [duplicateWarnMsg]⟩ ∧
    df_append (r0 :: rest) (DupMsg.str "return") =
        Except.ok ⟨AppendResult.run (appendJoint r0 rest), [returnWarnMsg]⟩ ∧
    (∀ msg : DupMsg, msg.truthy = false →
      df_append (r0 :: rest) msg =
        Except.ok ⟨AppendResult.run (appendAveraged (appendJoint r0 rest)), []⟩) ∧
    (∀ s : String, s ≠ "" → s ≠ "warn" → s ≠ "return" →
      df_append (r0 :: rest) (DupMsg.str s) =
        Except.error "Unrecognised value for duplicate_msg") ∧
    df_append (r0 :: rest) (DupMsg.bool true) =
        Except.error "Unrecognised value for duplicate_msg" := by
  refine ⟨?_, ?_, ?_, ?_, ?_⟩
  · simp [df_append, handle_potential_duplicates_in_append, hdup, hcon, DupMsg.truthy]
  · simp [df_append, handle_potential_duplicates_in_append, hdup, hcon, DupMsg.truthy]
  · intro msg hmsg
    simp [df_append, hdup, hmsg]
  · intro s h1 h2 h3
    simp [df_append, handle_potential_duplicates_in_append, hdup, hcon,
      DupMsg.truthy, h1, h2, h3]
  · simp [df_append, handle_potential_duplicates_in_append, hdup, hcon, DupMsg.truthy]

/-- C2 witness: the dispatch at two one-series containers with identical
metadata and overlapping non-NaN values. -/
theorem df_append_duplicate_policy_dispatch_witness :
    df_append [dupRunA, dupRunDouble] (DupMsg.str "warn") =
        Except.ok ⟨AppendResult.run (appendAveraged (appendJoint dupRunA [dupRunDouble])),
          [duplicateWarnMsg]⟩ ∧
    df_append [dupRunA, dupRunDouble] (DupMsg.str "return") =
        Except.ok ⟨AppendResult.run (appendJoint dupRunA [dupRunDouble]), [returnWarnMsg]⟩ ∧
    (∀ msg : DupMsg, msg.truthy = false →
      df_append [dupRunA, dupRunDouble] msg =
        Except.ok ⟨AppendResult.run (appendAveraged (appendJoint dupRunA [dupRunDouble])), []⟩) ∧
    (∀ s : String, s ≠ "" → s ≠ "warn" → s ≠ "return" →
      df_append [dupRunA, dupRunDouble] (DupMsg.str s) =
        Except.error "Unrecognised value for duplicate_msg") ∧
    df_append [dupRunA, dupRunDouble] (DupMsg.bool true) =
        Except.error "Unrecognised value for duplicate_msg" :=
  df_append_duplicate_policy_dispatch dupRunA [dupRunDouble] (by decide) (by decide)

/-- C2 counterexample: as frozen, the claim is false in two ways.  (i) Two
series with identical metadata but disjoint non-NaN coverage are duplicate
metadata rows after the union, yet an unrecognised policy value ("junk")
raises no ValueError -- the series are merged silently.  (ii) Under
"return" the handed-back value is the joint run container
(`AppendResult.run`), not a raw non-container table: the source returns
`data`, an `ScmRun`, despite its docstring and warning text promising a
`pd.DataFrame`. -/
theorem df_append_duplicate_policy_counterexample :
    (hasDup ((appendJoint dupRunA [dupRunLater]).ts.map (fun t => t.meta)) = true ∧
      df_append [dupRunA, dupRunLater] (DupMsg.str "junk") =
        Except.ok ⟨AppendResult.run (appendAveraged (appendJoint dupRunA [dupRunLater])),
          []⟩) ∧
    df_append [dupRunA, dupRunDouble] (DupMsg.str "return") =
      Except.ok ⟨AppendResult.run (appendJoint dupRunA [dupRunDouble]),
        [returnWarnMsg]⟩ := by
  refine ⟨⟨by decide, by rfl⟩, by rfl⟩

theorem colMean_pair (w : Option Rat) : colMean [w, w] = w := by
  cases w with
  | none => simp [colMean, List.reduceOption]
  | some x =>
    simp only [colMean, List.reduceOption, List.filterMap_cons, List.filterMap_nil]
    norm_num

theorem meanValues_pair (n : Nat) (v : List (Option Rat)) (h : v.length = n) :
    meanValues n [v, v] = v := by
  apply List.ext_get?
  intro k
  by_cases hk : k < n
  · have hmv : (meanValues n [v, v]).get? k
        = some (colMean [(v.get? k).join, (v.get? k).join]) := by
      simp only [meanValues, List.get?_map, List.get?_range hk, Option.map_some',
        List.map_cons, List.map_nil]
    have hvk : ∃ w, v.get? k = some w :=
      ⟨v.get (⟨k, h ▸ hk⟩), List.get?_eq_get (h ▸ hk)⟩
    rcases hvk with ⟨w, hw⟩
    rw [hmv, hw]
    rw [show (some w).join = w from rfl, colMean_pair]
  · have h1 : (meanValues n [v, v]).get? k = none := by
      apply List.get?_eq_none.mpr
      simp only [meanValues, List.length_map, List.length_range]
      omega
    have h2 : v.get? k = none := by
      apply List.get?_eq_none.mpr
      omega
    rw [h1, h2]

/-- If metadata rows inside `A` are pairwise distinct, averaging the
self-appended list `A ++ A` reproduces `A` itself: each group is one
series twice, and the NaN-ignoring mean of two equal values is that
value. -/
theorem groupMeanTS_self_append (n : Nat) (tp : List Int) (A : List TimeSeries)
    (hnodup : (A.map (fun t => t.meta)).Nodup)
    (htimes : ∀ t ∈ A, t.times = tp)
    (hlen : ∀ t ∈ A, t.values.length = n) :
    groupMeanTS n tp (A ++ A) = A := by
  unfold groupMeanTS
  rw [List.map_append, dedupFirst_append_self, dedupFirst_eq_self_of_nodup _ hnodup,
    List.map_map]
  have hpt : ∀ t ∈ A, ((fun m =>
      ({ name := (((A ++ A).filter (fun u => decide (u.meta = m))).head?.map
            (fun t => t.name)).getD 0
         meta := m
         times := tp
         values := meanValues n (((A ++ A).filter
            (fun u => decide (u.meta = m))).map (fun t => t.values)) } : TimeSeries))
        ∘ (fun t => t.meta)) t = t := by
    intro t ht
    have hfilt : (A ++ A).filter (fun u => decide (u.meta = t.meta)) = [t, t] := by
      rw [List.filter_append,
        filter_key_eq_single_of_nodup (fun u => u.meta) A hnodup t ht]
      rfl
    simp only [Function.comp_apply, hfilt]
    have hv : meanValues n [t.values, t.values] = t.values :=
      meanValues_pair n t.values (hlen t ht)
    have htp : tp = t.times := (htimes t ht).symm
    simp [hv, htp]
  exact (List.map_congr_left hpt).trans (by simp)

/-- A strictly increasing axis is already in `np.unique` form. -/
theorem sortedUnique_eq_self (l : List Int) (h : List.Pairwise (· < ·) l) :
    sortedUnique l = l := by
  unfold sortedUnique
  rw [dedupFirst_eq_self_of_nodup l (List.Pairwise.imp ne_of_lt h)]
  exact sortLe_eq_self_of_pairwise intLe l
    (List.Pairwise.imp (fun hab => by simp [intLe]; omega) h)

/-- Appending a container to itself leaves the (strictly sorted) time axis
unchanged and concatenates the series list with itself. -/
theorem appendJoint_self (r : ScmRun) (hsort : List.Pairwise (· < ·) r.time_points) :
    appendJoint r [r] = ⟨r.time_points, r.ts ++ r.ts⟩ := by
  have hflat : ([r, r].flatMap (fun x => x.time_points)) =
      r.time_points ++ r.time_points := by simp
  have hnew : sortedUnique ([r, r].flatMap (fun x => x.time_points)) = r.time_points := by
    rw [hflat]
    unfold sortedUnique
    rw [dedupFirst_append_self]
    exact sortedUnique_eq_self r.time_points hsort
  simp only [appendJoint, hnew]
  simp

/-- A self-appended non-NaN value produces an overlap the duplicate check
detects. -/
theorem hasContributingDuplicates_self_append (n : Nat) (A : List TimeSeries)
    (hnodup : (A.map (fun t => t.meta)).Nodup)
    (t : TimeSeries) (ht : t ∈ A) (k : Nat) (hk : k < n)
    (hv : ((t.values.get? k).join).isSome = true) :
    hasContributingDuplicates n (A ++ A) = true := by
  apply List.any_eq_true.mpr
  refine ⟨t.meta, ?_, ?_⟩
  · apply (mem_dedupFirst _ _).mpr
    rw [List.map_append]
    exact List.mem_append_left _ (List.mem_map_of_mem _ ht)
  · apply List.any_eq_true.mpr
    refine ⟨k, List.mem_range.mpr hk, ?_⟩
    have hfilt : (A ++ A).filter (fun u => decide (u.meta = t.meta)) = [t, t] := by
      rw [List.filter_append,
        filter_key_eq_single_of_nodup (fun u => u.meta) A hnodup t ht]
      rfl
    rw [hfilt]
    have hv' : ((t.values[k]?).bind (fun a => a)).isSome = true := by
      have h0 : t.values.get? k = t.values[k]? := List.get?_eq_getElem? t.values k
      rw [← h0]
      exact hv
    simp [List.filter_cons, hv']

/-- C5 (amended): appending a container with pairwise-distinct metadata
rows, a strictly increasing time axis and at least one non-NaN value to an
identical copy of itself yields a container over the same time axis whose
(metadata, values) pairs are exactly the original ones (duplicate
averaging: the mean of two equal values is that value), and exactly the
one averaging warning is raised under the default "warn" policy. -/
theorem df_append_self_identity (r : ScmRun)
    (hsort : List.Pairwise (· < ·) r.time_points)
    (htimes : ∀ t ∈ r.ts, t.times = r.time_points)
    (hlen : ∀ t ∈ r.ts, t.values.length = r.time_points.length)
    (hnodup : (r.ts.map (fun t => t.meta)).Nodup)
    (hval : ∃ t ∈ r.ts, ∃ k : Nat, ((t.values.get? k).join).isSome = true) :
    ∃ res : ScmRun,
      df_append [r, r] (DupMsg.str "warn") =
        Except.ok ⟨AppendResult.run res, [duplicateWarnMsg]⟩ ∧
      res.time_points = r.time_points ∧
      (res.ts.map (fun t => (t.meta, t.values))).Perm
        (r.ts.map (fun t => (t.meta, t.values))) := by
  have hjoint : appendJoint r [r] = ⟨r.time_points, r.ts ++ r.ts⟩ :=
    appendJoint_self r hsort
  rcases hval with ⟨t, ht, k, hv⟩
  have hne : r.ts ≠ [] := by
    intro h0
    rw [h0] at ht
    simp at ht
  have hdup : hasDup ((appendJoint r [r]).ts.map (fun t => t.meta)) = true := by
    rw [hjoint]
    show hasDup ((r.ts ++ r.ts).map (fun t => t.meta)) = true
    rw [List.map_append]
    refine hasDup_append_self _ ?_
    intro hmap
    exact hne (List.map_eq_nil.mp hmap)
  have hk : k < r.time_points.length := by
    by_contra hge
    have : t.values.get? k = none := List.get?_eq_none.mpr (by
      rw [hlen t ht]; omega)
    rw [this] at hv
    simp at hv
  have hcon : hasContributingDuplicates (appendJoint r [r]).time_points.length
      (appendJoint r [r]).ts = true := by
    rw [hjoint]
    exact hasContributingDuplicates_self_append r.time_points.length r.ts
      hnodup t ht k hk hv
  have heq : df_append [r, r] (DupMsg.str "warn") =
      Except.ok ⟨AppendResult.run (appendAveraged (appendJoint r [r])),
        [duplicateWarnMsg]⟩ := by
    simp [df_append, handle_potential_duplicates_in_append, hdup, hcon, DupMsg.truthy]
  refine ⟨appendAveraged (appendJoint r [r]), heq, ?_, ?_⟩
  · rw [hjoint]
    rfl
  · rw [hjoint]
    show ((sortLe nameLe (groupMeanTS (List.length r.time_points) r.time_points
      (r.ts ++ r.ts))).map (fun t => (t.meta, t.values))).Perm _
    rw [groupMeanTS_self_append r.time_points.length r.time_points r.ts
      hnodup htimes hlen]
    exact List.Perm.map _ (sortLe_perm nameLe r.ts)

/-- C5 witness: the identity-append at the sample container. -/
theorem df_append_self_identity_witness :
    ∃ res : ScmRun,
      df_append [sampleRun, sampleRun] (DupMsg.str "warn") =
        Except.ok ⟨AppendResult.run res, [duplicateWarnMsg]⟩ ∧
      res.time_points = sampleRun.time_points ∧
      (res.ts.map (fun t => (t.meta, t.values))).Perm
        (sampleRun.ts.map (fun t => (t.meta, t.values))) :=
  df_append_self_identity sampleRun (by decide) (by decide) (by decide)
    (by decide)
    ⟨{ name := 0, meta := metaPE, times := [2005, 2010, 2015],
       values := [some 1, some 6, some 6] }, by decide, 0, by decide⟩

/-- A container with one all-NaN series. -/
def nanRun : ScmRun :=
  { time_points := [2005],
    ts := [{ name := 0, meta := metaS2, times := [2005], values := [none] }] }

/-- A container whose two series carry identical metadata but different
values. -/
def dupMetaRun : ScmRun :=
  { time_points := [2005],
    ts := [{ name := 0, meta := metaS2, times := [2005], values := [some 1] },
           { name := 1, meta := metaS2, times := [2005], values := [some 3] }] }

/-- C5 counterexample: as frozen, the claim fails on the code.  (i)
Appending the all-NaN container to itself raises no warning at all (the
warnings list is empty, not of length one), because no time point has more
than one non-NaN contributor.  (ii) Appending a container that internally
carries two series with identical metadata to itself averages all four
value rows, so the resulting series values (the mean 2 of 1,3,1,3) equal
no original series values. -/
theorem df_append_self_identity_counterexample :
    (df_append [nanRun, nanRun] (DupMsg.str "warn") =
      Except.ok ⟨AppendResult.run (appendAveraged (appendJoint nanRun [nanRun])),
        []⟩) ∧
    (df_append [dupMetaRun, dupMetaRun] (DupMsg.str "warn") =
      Except.ok ⟨AppendResult.run (appendAveraged (appendJoint dupMetaRun [dupMetaRun])),
        [duplicateWarnMsg]⟩ ∧
      ∀ t ∈ (appendAveraged (appendJoint dupMetaRun [dupMetaRun])).ts,
        ∀ u ∈ dupMetaRun.ts, t.values ≠ u.values) := by
  refine ⟨by rfl, by rfl, ?_⟩
  have h0 : appendAveraged (appendJoint dupMetaRun [dupMetaRun]) =
      { time_points := [2005],
        ts := [{ name := 0, meta := metaS2, times := [2005],
                 values := meanValues 1
                   [[some 1], [some 3], [some 1], [some 3]] }] } := by rfl
  have h1a : meanValues 1 [[(some 1 : Option Rat)], [some 3], [some 1], [some 3]]
      = [colMean [some 1, some 3, some 1, some 3]] := by rfl
  have h1b : colMean [(some 1 : Option Rat), some 3, some 1, some 3]
      = some (([(1 : Rat), 3, 1, 3]).sum / (([(1 : Rat), 3, 1, 3]).length : Rat)) :=
    rfl
  have h1 : meanValues 1 [[(some 1 : Option Rat)], [some 3], [some 1], [some 3]]
      = [some 2] := by
    rw [h1a, h1b]
    norm_num
  rw [h0, h1]
  intro t ht u hu
  simp only [List.mem_singleton] at ht
  subst ht
  simp only [dupMetaRun, List.mem_cons, List.mem_singleton, List.not_mem_nil,
    or_false] at hu
  rcases hu with rfl | rfl
  · intro hcontra
    simp only [List.cons.injEq, Option.some.injEq] at hcontra
    norm_num at hcontra
  · intro hcontra
    simp only [List.cons.injEq, Option.some.injEq] at hcontra
    norm_num at hcontra

theorem zip_lookup_absent : ∀ (times : List Int) (values : List (Option Rat))
    (x : Int), x ∉ times → ((times.zip values).lookup x).getD none = none := by
  intro times
  induction times with
  | nil => intro values x _; simp [List.lookup]
  | cons t ts ih =>
    intro values x hx
    cases values with
    | nil => simp [List.lookup]
    | cons v vs =>
      have hxt : x ≠ t := by
        intro he
        exact hx (he ▸ List.mem_cons_self t ts)
      have hxts : x ∉ ts := fun hc => hx (List.mem_cons_of_mem t hc)
      simp only [List.zip_cons_cons, List.lookup]
      have hbeq : (x == t) = false := by simpa using hxt
      rw [hbeq]
      simpa [List.zip] using ih vs x hxts

/-- After reindexing onto an axis, the value at a position whose time point
is outside the series' own axis is NaN. -/
theorem reindex_values_get?_none (t : TimeSeries) (newT : List Int) (k : Nat)
    (x : Int) (hk : newT.get? k = some x) (hx : x ∉ t.times) :
    (t.reindex newT).values.get? k = some none := by
  simp only [TimeSeries.reindex, List.get?_map, hk, Option.map_some']
  rw [zip_lookup_absent t.times t.values x hx]

/-- Sufficient condition for the overlap test to be negative: every
metadata group has at most one non-NaN contribution at every time
column. -/
theorem hasContributingDuplicates_eq_false (n : Nat) (l : List TimeSeries)
    (h : ∀ m ∈ dedupFirst (l.map (fun t => t.meta)), ∀ k, k < n →
      ((l.filter (fun t => decide (t.meta = m))).filter
        (fun t => ((t.values.get? k).join).isSome)).length ≤ 1) :
    hasContributingDuplicates n l = false := by
  unfold hasContributingDuplicates
  rw [List.any_eq_false]
  intro m hm
  intro hcon
  rw [List.any_eq_true] at hcon
  rcases hcon with ⟨k, hkmem, hk⟩
  have hlt : 1 < ((l.filter (fun t => decide (t.meta = m))).filter
      (fun t => ((t.values.get? k).join).isSome)).length := by
    simpa using hk
  have hle := h m hm k (List.mem_range.mp hkmem)
  omega

/-- After reindexing a side whose own axis misses the time point at column
`k`, no series of that side contributes a non-NaN value at `k`. -/
theorem side_filter_empty_at_absent_column (L : List TimeSeries)
    (tAx N : List Int) (k : Nat) (x : Int) (p : TimeSeries → Bool)
    (htimes : ∀ t ∈ L, t.times = tAx) (hkx : N.get? k = some x)
    (hx : x ∉ tAx) :
    ((L.map (fun t => t.reindex N)).filter p).filter
      (fun t => ((t.values.get? k).join).isSome) = [] := by
  rw [List.filter_eq_nil]
  intro u hu
  rcases List.mem_map.mp (List.mem_of_mem_filter hu) with ⟨t, htL, rfl⟩
  have hnone : (t.reindex N).values.get? k = some none :=
    reindex_values_get?_none t N k x hkx (by rw [htimes t htL]; exact hx)
  have h0 : (t.reindex N).values[k]? = some none := by
    rw [← List.get?_eq_getElem?]
    exact hnone
  simp [h0]

/-- C6 (amended): appending two containers with the year axes
[2005,2010,2015] and [2020,2030,2040] -- disjoint, identical metadata
across the two containers allowed, metadata distinct within each container
-- yields a container whose time axis is exactly the union
[2005,2010,2015,2020,2030,2040], and no averaging warning is emitted
(whether or not metadata coincide across the containers, no time point of
the union has two non-NaN contributors). -/
theorem df_append_disjoint_axes (r1 r2 : ScmRun)
    (h1 : r1.time_points = [2005, 2010, 2015])
    (h2 : r2.time_points = [2020, 2030, 2040])
    (ht1 : ∀ t ∈ r1.ts, t.times = r1.time_points)
    (ht2 : ∀ t ∈ r2.ts, t.times = r2.time_points)
    (hn1 : (r1.ts.map (fun t => t.meta)).Nodup)
    (hn2 : (r2.ts.map (fun t => t.meta)).Nodup) :
    ∃ res : ScmRun,
      df_append [r1, r2] (DupMsg.str "warn") =
        Except.ok ⟨AppendResult.run res, []⟩ ∧
      res.time_points = [2005, 2010, 2015, 2020, 2030, 2040] := by
  have hflat : [r1, r2].flatMap (fun x => x.time_points)
      = r1.time_points ++ r2.time_points := by simp
  have hnew : sortedUnique ([r1, r2].flatMap (fun x => x.time_points))
      = [2005, 2010, 2015, 2020, 2030, 2040] := by
    rw [hflat, h1, h2]
    decide
  have hne : decide (r1.time_points
      = ([2005, 2010, 2015, 2020, 2030, 2040] : List Int)) = false := by
    rw [h1]
    decide
  have hvalid : ([r1, r2].all (fun r => decide (r.time_points
      = ([2005, 2010, 2015, 2020, 2030, 2040] : List Int)))) = false := by
    simp only [List.all_cons, hne, Bool.false_and]
  have hjoint : appendJoint r1 [r2] =
      ⟨[2005, 2010, 2015, 2020, 2030, 2040],
       (r1.ts ++ r2.ts).map
         (fun t => t.reindex [2005, 2010, 2015, 2020, 2030, 2040])⟩ := by
    simp only [appendJoint, hnew, hvalid]
    simp
  have hmapnd1 : ((r1.ts.map
      (fun t => t.reindex [2005, 2010, 2015, 2020, 2030, 2040])).map
      (fun t => t.meta)).Nodup := by
    rw [List.map_map]
    exact hn1
  have hmapnd2 : ((r2.ts.map
      (fun t => t.reindex [2005, 2010, 2015, 2020, 2030, 2040])).map
      (fun t => t.meta)).Nodup := by
    rw [List.map_map]
    exact hn2
  by_cases hdup : hasDup ((appendJoint r1 [r2]).ts.map (fun t => t.meta)) = true
  · have hconF : hasContributingDuplicates
        (appendJoint r1 [r2]).time_points.length (appendJoint r1 [r2]).ts = false := by
      rw [hjoint]
      apply hasContributingDuplicates_eq_false
      intro m hm k hk
      rw [List.map_append, List.filter_append, List.filter_append, List.length_append]
      have hA := length_filter_key_le_one_of_nodup (fun t => t.meta) m
        (r1.ts.map (fun t => t.reindex [2005, 2010, 2015, 2020, 2030, 2040])) hmapnd1
      have hB := length_filter_key_le_one_of_nodup (fun t => t.meta) m
        (r2.ts.map (fun t => t.reindex [2005, 2010, 2015, 2020, 2030, 2040])) hmapnd2
      simp only [ScmRun.time_points] at hk
      have hk6 : k < 6 := by simpa using hk
      interval_cases k
      · rw [side_filter_empty_at_absent_column r2.ts r2.time_points
          [2005, 2010, 2015, 2020, 2030, 2040] 0 2005 _ ht2 rfl (by rw [h2]; decide)]
        simp only [List.length_nil, Nat.add_zero]
        exact le_trans (List.length_filter_le _ _) hA
      · rw [side_filter_empty_at_absent_column r2.ts r2.time_points
          [2005, 2010, 2015, 2020, 2030, 2040] 1 2010 _ ht2 rfl (by rw [h2]; decide)]
        simp only [List.length_nil, Nat.add_zero]
        exact le_trans (List.length_filter_le _ _) hA
      · rw [side_filter_empty_at_absent_column r2.ts r2.time_points
          [2005, 2010, 2015, 2020, 2030, 2040] 2 2015 _ ht2 rfl (by rw [h2]; decide)]
        simp only [List.length_nil, Nat.add_zero]
        exact le_trans (List.length_filter_le _ _) hA
      · rw [side_filter_empty_at_absent_column r1.ts r1.time_points
          [2005, 2010, 2015, 2020, 2030, 2040] 3 2020 _ ht1 rfl (by rw [h1]; decide)]
        simp only [List.length_nil, Nat.zero_add]
        exact le_trans (List.length_filter_le _ _) hB
      · rw [side_filter_empty_at_absent_column r1.ts r1.time_points
          [2005, 2010, 2015, 2020, 2030, 2040] 4 2030 _ ht1 rfl (by rw [h1]; decide)]
        simp only [List.length_nil, Nat.zero_add]
        exact le_trans (List.length_filter_le _ _) hB
      · rw [side_filter_empty_at_absent_column r1.ts r1.time_points
          [2005, 2010, 2015, 2020, 2030, 2040] 5 2040 _ ht1 rfl (by rw [h1]; decide)]
        simp only [List.length_nil, Nat.zero_add]
        exact le_trans (List.length_filter_le _ _) hB
    have heq : df_append [r1, r2] (DupMsg.str "warn") =
        Except.ok ⟨AppendResult.run (appendAveraged (appendJoint r1 [r2])), []⟩ := by
      simp [df_append, handle_potential_duplicates_in_append, hdup, hconF,
        DupMsg.truthy]
    refine ⟨appendAveraged (appendJoint r1 [r2]), heq, ?_⟩
    rw [hjoint]
    rfl
  · have hdup' : hasDup ((appendJoint r1 [r2]).ts.map (fun t => t.meta)) = false := by
      simpa using hdup
    have heq : df_append [r1, r2] (DupMsg.str "warn") =
        Except.ok ⟨AppendResult.run
          ⟨(appendJoint r1 [r2]).time_points,
           sortLe nameLe (appendJoint r1 [r2]).ts⟩, []⟩ := by
      simp [df_append, hdup']
    refine ⟨_, heq, ?_⟩
    rw [hjoint]

/-- C6 witness: the disjoint-axis append of the two concrete one-series
containers with identical metadata. -/
theorem df_append_disjoint_axes_witness :
    ∃ res : ScmRun,
      df_append [dupRunA, dupRunLater] (DupMsg.str "warn") =
        Except.ok ⟨AppendResult.run res, []⟩ ∧
      res.time_points = [2005, 2010, 2015, 2020, 2030, 2040] :=
  df_append_disjoint_axes dupRunA dupRunLater (by decide) (by decide) (by decide)
    (by decide) (by decide) (by decide)

/-- A container over [2005,2010,2015] that internally carries two series
with identical metadata and overlapping non-NaN values. -/
def warnRun1 : ScmRun :=
  { time_points := [2005, 2010, 2015],
    ts := [{ name := 0, meta := metaS2, times := [2005, 2010, 2015],
             values := [some 1, some 1, some 1] },
           { name := 1, meta := metaS2, times := [2005, 2010, 2015],
             values := [some 2, some 2, some 2] }] }

/-- C6 counterexample: as frozen, the claim quantifies over all containers
with those axes; a container that internally duplicates a metadata row with
overlapping non-NaN values already triggers the averaging warning, so
"no averaging warning is emitted" fails even though the two time axes
[2005,2010,2015] and [2020,2030,2040] are disjoint. -/
theorem df_append_disjoint_axes_counterexample :
    (df_append [warnRun1, dupRunLater] (DupMsg.str "warn")).map
      (fun o => o.warnings) = Except.ok [duplicateWarnMsg] := by rfl

/-- A filesystem path: its components from the filesystem root. -/
abbrev FsPath := List String

/-- Resolution of "." and ".." components, the symlink-free core of
`pathlib.Path.resolve` used by `_check_is_subdir`. -/
def resolvePath (p : FsPath) : FsPath :=
  p.foldl (fun acc c =>
    if c = "." then acc else if c = ".." then acc.dropLast else acc ++ [c]) []

/-- The proper ancestors of a path, `pathlib.Path.parents`: all proper
front segments. -/
def pathParents (p : FsPath) : List FsPath :=
  (List.range p.length).map (fun k => p.take k)

/-- Embedding of `_check_is_subdir` (src/scmdata/database.py, lines
44-51): raise an `AssertionError` unless the resolved root is a proper
ancestor of the resolved candidate. -/
def check_is_subdir (root d : FsPath) : Except String Unit :=
  if resolvePath root ∈ pathParents (resolvePath d) then Except.ok ()
  else
    Except.error (String.intercalate "/" d ++ " not in " ++ String.intercalate "/" root)

/-- The on-disk database handle; only the root directory matters for the
deletion loop. -/
structure ScmDatabase where
  root_dir : FsPath
deriving DecidableEq

/-- The deletion loop of `ScmDatabase.delete` (src/scmdata/database.py,
lines 293-295): for each directory the glob matched (the glob itself is
filesystem I/O, so its result list is a parameter here -- the theorem
thereby covers every possible `filters` argument), run the subdirectory
check and only then remove it; the check aborts the loop with the
assertion error.  Returns the directories actually removed together with
the error, if any. -/
def ScmDatabase.delete (db : ScmDatabase) : List FsPath → List FsPath × Option String
  | [] => ([], none)
  | d :: rest =>
    match check_is_subdir db.root_dir d with
    | Except.ok _ =>
      let r := db.delete rest
      (d :: r.1, r.2)
    | Except.error e => ([], some e)

theorem mem_pathParents_iff (r p : FsPath) :
    r ∈ pathParents p ↔ r <+: p ∧ r.length < p.length := by
  constructor
  · intro h
    rcases List.mem_map.mp h with ⟨k, hk, hr⟩
    have hklt : k < p.length := List.mem_range.mp hk
    constructor
    · rw [← hr]
      exact List.take_prefix k p
    · rw [← hr]
      rw [List.length_take]
      omega
  · rintro ⟨hpre, hlt⟩
    apply List.mem_map.mpr
    refine ⟨r.length, List.mem_range.mpr hlt, ?_⟩
    exact (List.prefix_iff_eq_take.mp hpre).symm

/-- C8: every directory the deletion loop of `ScmDatabase.delete` removes
lies strictly inside the resolved root directory -- the resolved root is a
proper front segment of the removed path's resolution.  The subdirectory
check runs (and can only abort) before any removal, so no path outside
`root_dir` is ever deleted, whatever directories the glob produced. -/
theorem delete_only_removes_inside_root (db : ScmDatabase) (dirs : List FsPath)
    (d : FsPath) (hd : d ∈ (db.delete dirs).1) :
    resolvePath db.root_dir <+: resolvePath d ∧
    (resolvePath db.root_dir).length < (resolvePath d).length := by
  rw [← mem_pathParents_iff]
  induction dirs with
  | nil => simp [ScmDatabase.delete] at hd
  | cons d0 rest ih =>
    by_cases hc : resolvePath db.root_dir ∈ pathParents (resolvePath d0)
    · have : db.delete (d0 :: rest) =
          ((d0 :: (db.delete rest).1), (db.delete rest).2) := by
        simp [ScmDatabase.delete, check_is_subdir, hc]
      rw [this] at hd
      rcases List.mem_cons.mp hd with rfl | hmem
      · exact hc
      · exact ih hmem
    · have : db.delete (d0 :: rest) = ([], some (String.intercalate "/" d0
          ++ " not in " ++ String.intercalate "/" db.root_dir)) := by
        simp [ScmDatabase.delete, check_is_subdir, hc]
      rw [this] at hd
      simp at hd

/-- C8 witness: deleting a matched directory inside the root at a concrete
database. -/
theorem delete_only_removes_inside_root_witness :
    resolvePath (ScmDatabase.mk ["data", "db"]).root_dir
      <+: resolvePath ["data", "db", "model_a"] ∧
    (resolvePath (ScmDatabase.mk ["data", "db"]).root_dir).length
      < (resolvePath ["data", "db", "model_a"]).length :=
  delete_only_removes_inside_root (ScmDatabase.mk ["data", "db"])
    [["data", "db", "model_a"], ["data", "other"]] ["data", "db", "model_a"]
    (by decide)

/-- Is the character a lower-case ASCII letter (code points 97-122)? -/
def isLowerAlpha (c : Char) : Bool :=
  decide (97 ≤ c.toNat) && decide (c.toNat ≤ 122)

/-- Is the character an upper-case ASCII letter (code points 65-90)? -/
def isUpperAlpha (c : Char) : Bool :=
  decide (65 ≤ c.toNat) && decide (c.toNat ≤ 90)

/-- ASCII lower-casing of a character, Python `str.lower` on the ASCII
range. -/
def pyLowerChar (c : Char) : Char :=
  if isUpperAlpha c then Char.ofNat (c.toNat + 32) else c

/-- ASCII upper-casing of a character. -/
def pyUpperChar (c : Char) : Char :=
  if isLowerAlpha c then Char.ofNat (c.toNat - 32) else c

/-- Is the character an ASCII letter (the cased characters in the ASCII
range, as Python `str.title` sees them)? -/
def isAsciiAlpha (c : Char) : Bool := isLowerAlpha c || isUpperAlpha c

/-- Python `str.title` on a character list: an ASCII letter is upper-cased
when the previous character was not a letter and lower-cased otherwise;
other characters pass through and reset the word state. -/
def titleChars : Bool → List Char → List Char
  | _, [] => []
  | prevCased, c :: cs =>
    (if isAsciiAlpha c then (if prevCased then pyLowerChar c else pyUpperChar c) else c)
      :: titleChars (isAsciiAlpha c) cs

/-- Does the character list start with the given pattern? -/
def leadsWith : List Char → List Char → Bool
  | [], _ => true
  | _ :: _, [] => false
  | p :: ps, c :: cs => decide (p = c) && leadsWith ps cs

/-- Python `str.replace` specialised to a one-character pattern (the `"|"`,
`" "` and `"_"` patterns of the codec): replace every occurrence. -/
def replaceChars1 (p : Char) (repl : List Char) : List Char → List Char
  | [] => []
  | c :: cs => if c = p then repl ++ replaceChars1 p repl cs
               else c :: replaceChars1 p repl cs

/-- Python `str.replace` specialised to a two-character pattern (the
`"__"` pattern of the codec): scan left to right, replacing
non-overlapping occurrences and continuing after each replacement. -/
def replaceChars2 (p₁ p₂ : Char) (repl : List Char) : List Char → List Char
  | [] => []
  | [c] => [c]
  | c₁ :: c₂ :: cs =>
    if c₁ = p₁ ∧ c₂ = p₂ then repl ++ replaceChars2 p₁ p₂ repl cs
    else c₁ :: replaceChars2 p₁ p₂ repl (c₂ :: cs)

/-- Python `str.lower` on strings (ASCII). -/
def pyLower (s : String) : String := String.mk (s.data.map pyLowerChar)

/-- Python `str.title` on strings (ASCII). -/
def pyTitle (s : String) : String := String.mk (titleChars false s.data)

/-- Embedding of `_var_to_nc` (src/scmdata/netcdf.py, lines 39-40):
hierarchy separator to double underscore, space to underscore,
lower-cased. -/
def var_to_nc (v : String) : String :=
  pyLower (String.mk (replaceChars1 ' ' ['_'] (replaceChars1 '|' ['_', '_'] v.data)))

/-- Embedding of `_nc_to_var` (src/scmdata/netcdf.py, lines 43-44): double
underscore back to the hierarchy separator, underscore back to space, then
`str.title`. -/
def nc_to_var (v : String) : String :=
  pyTitle (String.mk (replaceChars1 '_' [' '] (replaceChars2 '_' '_' ['|'] v.data)))

/-- One variable of the netCDF file model: its (escaped) name, its
per-variable attributes and its data array indexed by region then time. -/
structure NcVariable where
  name : String
  attrs : List (String × MVal)
  data : List (List (Option Rat))
deriving DecidableEq

/-- The netCDF file model for the default single dimension `("region",)`
of `run_to_nc`: the time axis, the sorted distinct region values, and one
data variable per variable name. -/
structure NcFile where
  times : List Int
  regions : List MVal
  vars : List NcVariable
deriving DecidableEq

/-- Embedding of `nc_to_run` (src/scmdata/netcdf.py, lines 189-205): open
the file (failures while opening happen outside the `try` and propagate),
then read it inside a `try`/`except` that logs any exception and falls
through to return `None`.  The reader is a parameter standing for
`_read_nc`, whose failure modes live in the external netCDF library, so
the statement quantifies over every possible failure. -/
def nc_to_run (openResult : Except String NcFile)
    (readFn : NcFile → Except String ScmRun) : Except String (Option ScmRun) :=
  match openResult with
  | Except.error e => Except.error e
  | Except.ok ds =>
    match readFn ds with
    | Except.ok r => Except.ok (some r)
    | Except.error _ => Except.ok none

/-- C10: once the netCDF file has been opened, `nc_to_run` never lets an
exception from the reading step propagate: for every reader outcome the
caller receives a value -- the parsed run on success and `None` when
reading failed for any reason. -/
theorem nc_to_run_catches_read_errors (ds : NcFile)
    (readFn : NcFile → Except String ScmRun) :
    (∃ o : Option ScmRun, nc_to_run (Except.ok ds) readFn = Except.ok o) ∧
    (∀ e, readFn ds = Except.error e →
      nc_to_run (Except.ok ds) readFn = Except.ok none) ∧
    (∀ r, readFn ds = Except.ok r →
      nc_to_run (Except.ok ds) readFn = Except.ok (some r)) := by
  refine ⟨?_, ?_, ?_⟩
  · cases h : readFn ds with
    | error e => exact ⟨none, by simp [nc_to_run, h]⟩
    | ok r => exact ⟨some r, by simp [nc_to_run, h]⟩
  · intro e he
    simp [nc_to_run, he]
  · intro r hr
    simp [nc_to_run, hr]

/-- C10 witness: a concrete opened file with a reader that always fails
yields `None`, not an error. -/
theorem nc_to_run_catches_read_errors_witness :
    (∃ o : Option ScmRun, nc_to_run (Except.ok ⟨[], [], []⟩)
      (fun _ => Except.error "boom") = Except.ok o) ∧
    (∀ e, (fun (_ : NcFile) => Except.error "boom") (⟨[], [], []⟩ : NcFile)
        = (Except.error e : Except String ScmRun) →
      nc_to_run (Except.ok ⟨[], [], []⟩) (fun _ => Except.error "boom")
        = Except.ok none) ∧
    (∀ r, (fun (_ : NcFile) => Except.error "boom") (⟨[], [], []⟩ : NcFile)
        = (Except.ok r : Except String ScmRun) →
      nc_to_run (Except.ok ⟨[], [], []⟩) (fun _ => Except.error "boom")
        = Except.ok (some r)) :=
  nc_to_run_catches_read_errors ⟨[], [], []⟩ (fun _ => Except.error "boom")

/-- Comparison of metadata values for `sorted(df.meta[d].unique())`:
NaN before numbers before strings, numbers by value, strings by code
point (Python raises on genuinely mixed types; this total order is the
embedding's choice and only fixes the region-axis order). -/
def mvalLe (a b : MVal) : Bool :=
  match a, b with
  | MVal.nan, _ => true
  | MVal.int _, MVal.nan => false
  | MVal.int m, MVal.int n => decide (m ≤ n)
  | MVal.int _, MVal.str _ => true
  | MVal.str _, MVal.nan => false
  | MVal.str _, MVal.int _ => false
  | MVal.str s, MVal.str t => strLe s t

/-- `sorted(set(...))` over metadata values. -/
def sortedUniqueM (l : List MVal) : List MVal := sortLe mvalLe (dedupFirst l)

/-- `mapM` over the `Except` monad, written out so that it unfolds by
plain structural recursion: stop at the first error. -/
def exceptMap {α β : Type _} (f : α → Except String β) : List α → Except String (List β)
  | [] => Except.ok []
  | a :: l =>
    match f a, exceptMap f l with
    | Except.error e, _ => Except.error e
    | Except.ok _, Except.error e => Except.error e
    | Except.ok b, Except.ok bs => Except.ok (b :: bs)

/-- The `region` metadata value of a series. -/
def regionOf (t : TimeSeries) : MVal := metaLookup t.meta "region"

/-- The `variable` metadata value of a series. -/
def variableOf (t : TimeSeries) : MVal := metaLookup t.meta "variable"

/-- Embedding of `run_to_nc`/`_write_nc` (src/scmdata/netcdf.py, lines
52-119 and 161-186) for the default dimension list `("region",)`: the
region axis is the sorted set of region values; the series are grouped by
variable; within a group the region values must be unique and every other
metadata column single-valued (those become the variable's attributes);
the data array holds one row per region value of the axis, NaN-filled for
regions absent from the group; the variable name is escaped with
`_var_to_nc`.  A non-string variable value cannot be escaped (Python
would raise an `AttributeError` inside `str.replace`). -/
def writeVar (df : ScmRun) (regions : List MVal) (v : MVal) : Except String NcVariable :=
  let grp := df.ts.filter (fun t => decide (variableOf t = v))
  if hasDup (grp.map regionOf) then
    Except.error "region dimension is not unique for variable"
  else
    let keys := (dedupFirst (grp.flatMap (fun t => t.meta.map Prod.fst))).filter
      (fun k => decide (k ≠ "variable") && decide (k ≠ "region"))
    match exceptMap (fun k =>
      let vals := dedupFirst (grp.map (fun t => metaLookup t.meta k))
      if vals.length ≠ 1 then
        Except.error "metadata is not unique for variable"
      else Except.ok (k, vals.headD MVal.nan)) keys with
    | Except.error e => Except.error e
    | Except.ok attrs =>
      match v with
      | MVal.str s =>
        Except.ok { name := var_to_nc s
                    attrs := attrs
                    data := regions.map (fun rv =>
                      match grp.find? (fun t => decide (regionOf t = rv)) with
                      | some t => t.values
                      | none => List.replicate df.time_points.length none) }
      | _ => Except.error "variable name is not a string"

/-- An empty container cannot be written: `_write_nc` evaluates
`type(vals[0])` on the region dimension's (then empty) value list and
raises before any variable is processed.  And every data variable is
created with `ds.createVariable`, which raises when the escaped name
collides with an already created variable -- the dimension variables
`time` and `region`, or an earlier data variable.  The collision check is
placed after the variable loop here; when several errors apply, which one
the real code raises first is not modelled, only that the write fails. -/
def write_nc (df : ScmRun) : Except String NcFile :=
  if df.ts.isEmpty then Except.error "list index out of range"
  else
    match exceptMap (writeVar df (sortedUniqueM (df.ts.map regionOf)))
        (dedupFirst (df.ts.map variableOf)) with
    | Except.error e => Except.error e
    | Except.ok vars =>
      if hasDup ("time" :: "region" :: vars.map (fun nv => nv.name)) then
        Except.error "variable already exists"
      else
        Except.ok { times := df.time_points
                    regions := sortedUniqueM (df.ts.map regionOf)
                    vars := vars }

/-- The valid rows `_read_nc` (src/scmdata/netcdf.py, lines 122-158)
collects for one data variable over the `region` dimension: for every
region row whose values are not all NaN, a series whose metadata are the
region value, the un-escaped variable name and the variable attributes
(dropping attribute names that start with an underscore); series names
are the positional indices `_from_ts` assigns later. -/
def readVar (f : NcFile) (v : NcVariable) : List TimeSeries :=
  (f.regions.zip v.data).filterMap (fun p =>
    if p.2.all (fun x => decide (x = none)) then none
    else some ({ name := 0
                 meta := ("region", p.1) :: ("variable", MVal.str (nc_to_var v.name))
                   :: v.attrs.filter (fun a => !(leadsWith ['_'] a.1.data))
                 times := f.times
                 values := p.2 } : TimeSeries))

/-- Embedding of `_read_nc` followed by the container construction
(`_from_ts`, src/scmdata/run.py, lines 213-247).  Two failure modes of the
real code are modelled.  First, `np.meshgrid(...).squeeze()` collapses a
length-one region axis to a 0-d array: the region multi-index is then
empty, each appended data row keeps its leading axis, and
`pd.DataFrame` raises on the resulting 3-d array -- so a single-region
file with any valid row cannot be read back.  Second, `_from_ts` requires
the collected columns to include `model`, `scenario`, `region`,
`variable` and `unit`, and raises otherwise (in particular whenever no
valid row was collected at all). -/
def read_nc (f : NcFile) : Except String ScmRun :=
  let ts := f.vars.flatMap (readVar f)
  if f.regions.length = 1 ∧ ts ≠ [] then
    Except.error "Must pass 2-d input"
  else if ["model", "scenario", "region", "variable", "unit"].all
      (fun k => decide (k ∈ ts.flatMap (fun t => t.meta.map Prod.fst))) then
    Except.ok { time_points := f.times,
                ts := ts.enum.map (fun p => { p.2 with name := p.1 }) }
  else Except.error "missing required columns"

/-- Canonical form of a metadata mapping: its pairs sorted by key, so that
containers can be compared independently of column order. -/
def canonMeta (m : Meta) : Meta := sortLe (fun a b => strLe a.1 b.1) m

/-- The (canonical metadata, values) pairs of a container: together with
the shared time axis these are exactly its (metadata, time, value)
triples. -/
def runPairs (r : ScmRun) : List (Meta × List (Option Rat)) :=
  r.ts.map (fun t => (canonMeta t.meta, t.values))

/-- Metadata with a variable name containing the hierarchy separator, a
space and an acronym that `str.title` cannot restore. -/
def co2Meta : Meta :=
  [("model", MVal.str "a_iam"), ("region", MVal.str "World"),
   ("scenario", MVal.str "a_scenario"), ("unit", MVal.str "EJ/yr"),
   ("variable", MVal.str "Primary Energy|CO2")]

/-- The same metadata at a second region, so that the file keeps a
two-valued region axis and the read path actually runs (a one-valued
region axis is collapsed by `squeeze` and the read raises). -/
def co2MetaAsia : Meta :=
  [("model", MVal.str "a_iam"), ("region", MVal.str "Asia"),
   ("scenario", MVal.str "a_scenario"), ("unit", MVal.str "EJ/yr"),
   ("variable", MVal.str "Primary Energy|CO2")]

/-- Two-region container carrying the `Primary Energy|CO2` variable. -/
def co2Run : ScmRun :=
  { time_points := [2005, 2010],
    ts := [{ name := 0, meta := co2Meta, times := [2005, 2010],
             values := [some 1, some 2] },
           { name := 1, meta := co2MetaAsia, times := [2005, 2010],
             values := [some 3, some 4] }] }

/-- C3 counterexample: as frozen, the claim is false.  The escaping
lower-cases the name and the read path restores case with `str.title`, so
the variable name `Primary Energy|CO2` -- which contains the hierarchy
separator and a space -- comes back as `Primary Energy|Co2` on this
two-region container (two regions, so the `squeeze` collapse does not
interfere and the read really succeeds): the write succeeds, the read
succeeds, but the (metadata, time, value) triples of the read-back
container carry a different variable value than the original. -/
theorem nc_round_trip_counterexample :
    ((write_nc co2Run).bind read_nc).map
      (fun r => r.ts.map (fun t => metaLookup t.meta "variable"))
      = Except.ok [MVal.str "Primary Energy|Co2", MVal.str "Primary Energy|Co2"] ∧
    co2Run.ts.map (fun t => metaLookup t.meta "variable")
      = [MVal.str "Primary Energy|CO2", MVal.str "Primary Energy|CO2"] ∧
    MVal.str "Primary Energy|Co2" ≠ MVal.str "Primary Energy|CO2" := by
  refine ⟨by decide, by decide, by decide⟩

theorem char_toNat_ofNat (n : Nat) (h : n < 55296) : (Char.ofNat n).toNat = n := by
  simp [Char.ofNat, Char.toNat, Nat.isValidChar, h, Char.ofNatAux]
  simp [UInt32.toNat, BitVec.toNat_ofNatLt]

theorem char_toNat_inj {a b : Char} (h : a.toNat = b.toNat) : a = b := by
  have h2 := congrArg Char.ofNat h
  rwa [Char.ofNat_toNat, Char.ofNat_toNat] at h2

theorem char_valid_toNat (c : Char) : c.toNat < 1114112 := by
  have h := c.valid
  rcases h with h | h
  · have : c.toNat < 55296 := h
    omega
  · rcases h with ⟨_, h2⟩
    exact h2

theorem isUpperAlpha_iff (c : Char) :
    isUpperAlpha c = true ↔ 65 ≤ c.toNat ∧ c.toNat ≤ 90 := by
  simp [isUpperAlpha]

theorem isLowerAlpha_iff (c : Char) :
    isLowerAlpha c = true ↔ 97 ≤ c.toNat ∧ c.toNat ≤ 122 := by
  simp [isLowerAlpha]

theorem pyLowerChar_toNat_of_upper (c : Char) (h : isUpperAlpha c = true) :
    (pyLowerChar c).toNat = c.toNat + 32 := by
  rcases (isUpperAlpha_iff c).mp h with ⟨h1, h2⟩
  simp only [pyLowerChar, h, if_true]
  exact char_toNat_ofNat (c.toNat + 32) (by omega)

theorem pyLowerChar_eq_of_not_upper (c : Char) (h : isUpperAlpha c = false) :
    pyLowerChar c = c := by
  simp [pyLowerChar, h]

theorem pyUpperChar_toNat_of_lower (c : Char) (h : isLowerAlpha c = true) :
    (pyUpperChar c).toNat = c.toNat - 32 := by
  rcases (isLowerAlpha_iff c).mp h with ⟨h1, h2⟩
  simp only [pyUpperChar, h, if_true]
  exact char_toNat_ofNat (c.toNat - 32) (by omega)

theorem not_upper_of_lower (c : Char) (h : isLowerAlpha c = true) :
    isUpperAlpha c = false := by
  rcases (isLowerAlpha_iff c).mp h with ⟨h1, h2⟩
  simp [isUpperAlpha]
  omega

theorem not_lower_of_upper (c : Char) (h : isUpperAlpha c = true) :
    isLowerAlpha c = false := by
  rcases (isUpperAlpha_iff c).mp h with ⟨h1, h2⟩
  simp [isLowerAlpha]
  omega

theorem isLowerAlpha_pyLowerChar (c : Char) (h : isUpperAlpha c = true) :
    isLowerAlpha (pyLowerChar c) = true := by
  rcases (isUpperAlpha_iff c).mp h with ⟨h1, h2⟩
  rw [isLowerAlpha_iff, pyLowerChar_toNat_of_upper c h]
  omega

theorem pyUpperChar_pyLowerChar (c : Char) (h : isUpperAlpha c = true) :
    pyUpperChar (pyLowerChar c) = c := by
  rcases (isUpperAlpha_iff c).mp h with ⟨h1, h2⟩
  have hl : isLowerAlpha (pyLowerChar c) = true := isLowerAlpha_pyLowerChar c h
  apply char_toNat_inj
  rw [pyUpperChar_toNat_of_lower _ hl, pyLowerChar_toNat_of_upper c h]
  omega

theorem pyLowerChar_eq_of_lower (c : Char) (h : isLowerAlpha c = true) :
    pyLowerChar c = c :=
  pyLowerChar_eq_of_not_upper c (not_upper_of_lower c h)

theorem isAsciiAlpha_pyLowerChar_of_upper (c : Char) (h : isUpperAlpha c = true) :
    isAsciiAlpha (pyLowerChar c) = true := by
  simp [isAsciiAlpha, isLowerAlpha_pyLowerChar c h]

theorem isAsciiAlpha_of_lower (c : Char) (h : isLowerAlpha c = true) :
    isAsciiAlpha c = true := by
  simp [isAsciiAlpha, h]

/-- Join character-list segments with a separator. -/
def joinWith (sep : List Char) : List (List Char) → List Char
  | [] => []
  | [w] => w
  | w :: ws => w ++ sep ++ joinWith sep ws

/-- A title-cased word: an upper-case ASCII letter followed by lower-case
ASCII letters. -/
def titleWord : List Char → Bool
  | [] => false
  | c :: rest => isUpperAlpha c && rest.all isLowerAlpha

/-- A title-safe variable name assembled from parts (separated by the
hierarchy separator), each part a non-empty list of title-cased words
(separated by single spaces). -/
def buildVar (parts : List (List (List Char))) : List Char :=
  joinWith ['|'] (parts.map (joinWith [' ']))

/-- Well-formedness of the part structure. -/
def titleSafeParts (parts : List (List (List Char))) : Bool :=
  !parts.isEmpty && parts.all (fun p => !p.isEmpty && p.all titleWord)

theorem replaceChars1_append (p : Char) (r : List Char) :
    ∀ (a b : List Char),
      replaceChars1 p r (a ++ b) = replaceChars1 p r a ++ replaceChars1 p r b := by
  intro a b
  induction a with
  | nil => rfl
  | cons c cs ih =>
    by_cases h : c = p
    · simp [replaceChars1, h, ih]
    · simp [replaceChars1, h, ih]

theorem replaceChars1_of_not_mem (p : Char) (r : List Char) :
    ∀ (l : List Char), (∀ c ∈ l, c ≠ p) → replaceChars1 p r l = l := by
  intro l
  induction l with
  | nil => intro _; rfl
  | cons c cs ih =>
    intro h
    have hc : c ≠ p := h c (by simp)
    simp [replaceChars1, hc, ih (fun x hx => h x (by simp [hx]))]

theorem replaceChars1_self (p : Char) (r : List Char) :
    replaceChars1 p r [p] = r := by
  simp [replaceChars1]

/-- The word state `str.title` is in after processing a chunk. -/
def casedAfter (b : Bool) (l : List Char) : Bool :=
  match l.getLast? with
  | some c => isAsciiAlpha c
  | none => b

theorem titleChars_append : ∀ (b : Bool) (x y : List Char),
    titleChars b (x ++ y) = titleChars b x ++ titleChars (casedAfter b x) y := by
  intro b x
  induction x generalizing b with
  | nil => intro y; rfl
  | cons c cs ih =>
    intro y
    simp only [List.cons_append, titleChars]
    rw [show cs.append y = cs ++ y from rfl, ih (isAsciiAlpha c) y]
    have hca : casedAfter (isAsciiAlpha c) cs = casedAfter b (c :: cs) := by
      cases cs with
      | nil => simp [casedAfter]
      | cons d ds =>
        simp only [casedAfter, List.getLast?_cons_cons]
        cases h : (d :: ds).getLast? with
        | none => simp at h
        | some e => rfl
    rw [hca]

theorem ne_of_alpha (c : Char) (h : isAsciiAlpha c = true) (d : Char)
    (hd : isAsciiAlpha d = false) : c ≠ d := by
  intro he
  rw [he, hd] at h
  exact Bool.false_ne_true h

theorem getLast?_mem_self : ∀ (l : List Char) (a : Char), l.getLast? = some a → a ∈ l := by
  intro l
  induction l with
  | nil => intro a h; simp at h
  | cons c cs ih =>
    intro a h
    cases cs with
    | nil =>
      have : c = a := by simpa using h
      simp [this]
    | cons d ds =>
      rw [List.getLast?_cons_cons] at h
      exact List.mem_cons_of_mem c (ih a h)

/-- No two consecutive underscores, so that `str.replace("__", ...)` never
fires inside the segment. -/
def noDU (l : List Char) : Prop :=
  List.Chain' (fun a b => ¬(a = '_' ∧ b = '_')) l

theorem noDU_of_no_underscore : ∀ (l : List Char), (∀ c ∈ l, c ≠ '_') → noDU l := by
  intro l
  induction l with
  | nil => intro _; exact List.chain'_nil
  | cons c cs ih =>
    intro h
    cases cs with
    | nil => exact List.chain'_singleton c
    | cons d ds =>
      refine List.chain'_cons.mpr ⟨fun hand => h c (by simp) hand.1, ?_⟩
      exact ih (fun x hx => h x (by simp [hx]))

theorem replaceChars2_id_of_noDU (r : List Char) :
    ∀ l, noDU l → replaceChars2 '_' '_' r l = l := by
  intro l
  induction l with
  | nil => intro _; rfl
  | cons c cs ih =>
    cases cs with
    | nil => intro _; rfl
    | cons d ds =>
      intro h
      rcases List.chain'_cons.mp h with ⟨h1, h2⟩
      rw [show replaceChars2 '_' '_' r (c :: d :: ds)
          = if c = '_' ∧ d = '_' then r ++ replaceChars2 '_' '_' r ds
            else c :: replaceChars2 '_' '_' r (d :: ds) from rfl]
      rw [if_neg h1, ih h2]

theorem replaceChars2_seg_step (r : List Char) :
    ∀ (seg rest : List Char), noDU seg → seg.getLast? ≠ some '_' →
      replaceChars2 '_' '_' r (seg ++ '_' :: '_' :: rest)
        = seg ++ r ++ replaceChars2 '_' '_' r rest := by
  intro seg
  induction seg with
  | nil =>
    intro rest _ _
    simp only [List.nil_append]
    rw [show replaceChars2 '_' '_' r ('_' :: '_' :: rest)
        = if ('_' : Char) = '_' ∧ ('_' : Char) = '_' then r ++ replaceChars2 '_' '_' r rest
          else '_' :: replaceChars2 '_' '_' r ('_' :: rest) from rfl]
    rw [if_pos ⟨rfl, rfl⟩]
  | cons c cs ih =>
    intro rest hDU hlast
    cases cs with
    | nil =>
      have hc : c ≠ '_' := by
        intro he
        exact hlast (by simp [he])
      rw [show ([c] ++ '_' :: '_' :: rest) = c :: '_' :: '_' :: rest from rfl]
      rw [show replaceChars2 '_' '_' r (c :: '_' :: '_' :: rest)
          = if c = '_' ∧ ('_' : Char) = '_' then r ++ replaceChars2 '_' '_' r ('_' :: rest)
            else c :: replaceChars2 '_' '_' r ('_' :: '_' :: rest) from rfl]
      rw [if_neg (fun hand => hc hand.1)]
      rw [show replaceChars2 '_' '_' r ('_' :: '_' :: rest)
          = if ('_' : Char) = '_' ∧ ('_' : Char) = '_' then r ++ replaceChars2 '_' '_' r rest
            else '_' :: replaceChars2 '_' '_' r ('_' :: rest) from rfl]
      rw [if_pos ⟨rfl, rfl⟩]
      rfl
    | cons d ds =>
      rcases List.chain'_cons.mp hDU with ⟨h1, h2⟩
      rw [List.getLast?_cons_cons] at hlast
      simp only [List.cons_append]
      rw [show replaceChars2 '_' '_' r (c :: d :: (ds ++ '_' :: '_' :: rest))
          = if c = '_' ∧ d = '_' then r ++ replaceChars2 '_' '_' r (ds ++ '_' :: '_' :: rest)
            else c :: replaceChars2 '_' '_' r (d :: (ds ++ '_' :: '_' :: rest)) from rfl]
      rw [if_neg h1]
      have hstep := ih rest h2 hlast
      simp only [List.cons_append] at hstep
      rw [hstep]

theorem replaceChars1_joinWith (p : Char) (r sep : List Char) :
    ∀ (ws : List (List Char)),
      replaceChars1 p r (joinWith sep ws)
        = joinWith (replaceChars1 p r sep) (ws.map (replaceChars1 p r)) := by
  intro ws
  induction ws with
  | nil => rfl
  | cons w ws ih =>
    cases ws with
    | nil => rfl
    | cons w₂ ws₂ =>
      rw [show joinWith sep (w :: w₂ :: ws₂)
          = w ++ sep ++ joinWith sep (w₂ :: ws₂) from rfl]
      rw [replaceChars1_append, replaceChars1_append, ih]
      rfl

theorem map_joinWith (f : Char → Char) (sep : List Char) :
    ∀ (ws : List (List Char)),
      (joinWith sep ws).map f = joinWith (sep.map f) (ws.map (List.map f)) := by
  intro ws
  induction ws with
  | nil => rfl
  | cons w ws ih =>
    cases ws with
    | nil => rfl
    | cons w₂ ws₂ =>
      rw [show joinWith sep (w :: w₂ :: ws₂)
          = w ++ sep ++ joinWith sep (w₂ :: ws₂) from rfl]
      rw [List.map_append, List.map_append, ih]
      rfl

theorem mem_joinWith (s : Char) :
    ∀ (ws : List (List Char)) (c : Char), c ∈ joinWith [s] ws →
      c = s ∨ ∃ w ∈ ws, c ∈ w := by
  intro ws
  induction ws with
  | nil => intro c hc; simp [joinWith] at hc
  | cons w ws ih =>
    cases ws with
    | nil =>
      intro c hc
      exact Or.inr ⟨w, by simp, hc⟩
    | cons w₂ ws₂ =>
      intro c hc
      rw [show joinWith [s] (w :: w₂ :: ws₂)
          = w ++ [s] ++ joinWith [s] (w₂ :: ws₂) from rfl] at hc
      rcases List.mem_append.mp hc with hc1 | hc2
      · rcases List.mem_append.mp hc1 with hw | hs
        · exact Or.inr ⟨w, by simp, hw⟩
        · exact Or.inl (by simpa using hs)
      · rcases ih c hc2 with h | ⟨u, hu, hcu⟩
        · exact Or.inl h
        · exact Or.inr ⟨u, by simp [List.mem_cons.mp hu], hcu⟩

theorem replaceChars1_joinWith_sep (p : Char) (r : List Char) :
    ∀ (ws : List (List Char)), (∀ w ∈ ws, ∀ c ∈ w, c ≠ p) →
      replaceChars1 p r (joinWith [p] ws) = joinWith r ws := by
  intro ws h
  rw [replaceChars1_joinWith]
  have h1 : replaceChars1 p r [p] = r := by
    simp [replaceChars1]
  have h2 : ws.map (replaceChars1 p r) = ws := by
    rw [show ws.map (replaceChars1 p r) = ws.map id from
      List.map_congr_left (fun w hw => replaceChars1_of_not_mem p r w (h w hw))]
    exact List.map_id ws
  rw [h1, h2]

theorem joinWith_head?_ne (s : Char) :
    ∀ (ws : List (List Char)), (∀ w ∈ ws, w ≠ [] ∧ ∀ c ∈ w, c ≠ s) →
      (joinWith [s] ws).head? ≠ some s := by
  intro ws h
  cases ws with
  | nil => simp [joinWith]
  | cons w ws₂ =>
    rcases h w (by simp) with ⟨hw, hwc⟩
    cases w with
    | nil => exact absurd rfl hw
    | cons c cs =>
      have hc : c ≠ s := hwc c (by simp)
      cases ws₂ with
      | nil =>
        simp only [joinWith, List.head?]
        intro he
        exact hc (by simpa using he)
      | cons w₂ ws₃ =>
        rw [show joinWith [s] ((c :: cs) :: w₂ :: ws₃)
            = (c :: cs) ++ [s] ++ joinWith [s] (w₂ :: ws₃) from rfl]
        simp only [List.cons_append, List.head?]
        intro he
        exact hc (by simpa using he)

theorem joinWith_getLast?_ne (s : Char) :
    ∀ (ws : List (List Char)), (∀ w ∈ ws, w ≠ [] ∧ ∀ c ∈ w, c ≠ s) →
      (joinWith [s] ws).getLast? ≠ some s := by
  intro ws
  induction ws with
  | nil => intro _; simp [joinWith]
  | cons w ws₂ ih =>
    intro h
    cases ws₂ with
    | nil =>
      intro he
      rcases h w (by simp) with ⟨_, hwc⟩
      exact hwc s (getLast?_mem_self w s he) rfl
    | cons w₂ ws₃ =>
      rw [show joinWith [s] (w :: w₂ :: ws₃)
          = w ++ [s] ++ joinWith [s] (w₂ :: ws₃) from rfl]
      have hne : joinWith [s] (w₂ :: ws₃) ≠ [] := by
        rcases h w₂ (by simp) with ⟨hw₂, _⟩
        cases w₂ with
        | nil => exact absurd rfl hw₂
        | cons c cs =>
          cases ws₃ with
          | nil => simp [joinWith]
          | cons w₃ ws₄ =>
            rw [show joinWith [s] ((c :: cs) :: w₃ :: ws₄)
                = (c :: cs) ++ [s] ++ joinWith [s] (w₃ :: ws₄) from rfl]
            simp
      rw [List.append_assoc, List.getLast?_append_of_ne_nil _ (by simp [hne])]
      rw [List.getLast?_append_of_ne_nil _ hne]
      exact ih (fun u hu => h u (by simp [List.mem_cons.mp hu]))

theorem joinWith_noDU (s : Char) (hs : s ≠ '_') :
    ∀ (ws : List (List Char)), (∀ w ∈ ws, ∀ c ∈ w, c ≠ '_') →
      noDU (joinWith [s] ws) := by
  intro ws h
  refine noDU_of_no_underscore _ ?_
  intro c hc
  rcases mem_joinWith s ws c hc with rfl | ⟨w, hw, hcw⟩
  · exact hs
  · exact h w hw c hcw

theorem replaceChars2_joinWith_sep (r : List Char) :
    ∀ (ws : List (List Char)),
      (∀ w ∈ ws, noDU w ∧ w.getLast? ≠ some '_') →
      replaceChars2 '_' '_' r (joinWith ['_', '_'] ws) = joinWith r ws := by
  intro ws
  induction ws with
  | nil => intro _; rfl
  | cons w ws ih =>
    cases ws with
    | nil => intro h; exact replaceChars2_id_of_noDU r w (h w (by simp)).1
    | cons w₂ ws₂ =>
      intro h
      rw [show joinWith ['_', '_'] (w :: w₂ :: ws₂)
          = w ++ ['_', '_'] ++ joinWith ['_', '_'] (w₂ :: ws₂) from rfl]
      rw [List.append_assoc]
      rw [show (['_', '_'] ++ joinWith ['_', '_'] (w₂ :: ws₂))
          = '_' :: '_' :: joinWith ['_', '_'] (w₂ :: ws₂) from rfl]
      rw [replaceChars2_seg_step r w _ (h w (by simp)).1 (h w (by simp)).2]
      rw [ih (fun u hu => h u (by simp [List.mem_cons.mp hu]))]
      rw [show joinWith r (w :: w₂ :: ws₂)
          = w ++ r ++ joinWith r (w₂ :: ws₂) from rfl]

theorem titleChars_true_of_lower :
    ∀ (l : List Char), (∀ c ∈ l, isLowerAlpha c = true) → titleChars true l = l := by
  intro l
  induction l with
  | nil => intro _; rfl
  | cons c cs ih =>
    intro h
    have hc : isLowerAlpha c = true := h c (by simp)
    have ha : isAsciiAlpha c = true := isAsciiAlpha_of_lower c hc
    simp only [titleChars, ha, if_true]
    rw [pyLowerChar_eq_of_lower c hc, ih (fun x hx => h x (by simp [hx]))]

theorem titleWord_restore (w : List Char) (hw : titleWord w = true) :
    titleChars false (w.map pyLowerChar) = w := by
  cases w with
  | nil => simp [titleWord] at hw
  | cons c rest =>
    simp only [titleWord, Bool.and_eq_true, List.all_eq_true] at hw
    rcases hw with ⟨hc, hrest⟩
    have hrl : rest.map pyLowerChar = rest := by
      rw [show rest.map pyLowerChar = rest.map id from
        List.map_congr_left (fun x hx => pyLowerChar_eq_of_lower x (hrest x hx))]
      exact List.map_id rest
    rw [List.map_cons, hrl]
    have ha : isAsciiAlpha (pyLowerChar c) = true := isAsciiAlpha_pyLowerChar_of_upper c hc
    simp only [titleChars, ha, if_true, Bool.false_eq_true, if_false]
    rw [pyUpperChar_pyLowerChar c hc]
    rw [titleChars_true_of_lower rest hrest]

theorem titleChars_joinWith (s : Char) (hs : isAsciiAlpha s = false) :
    ∀ (ws : List (List Char)),
      titleChars false (joinWith [s] ws) = joinWith [s] (ws.map (titleChars false)) := by
  intro ws
  induction ws with
  | nil => rfl
  | cons w ws ih =>
    cases ws with
    | nil => rfl
    | cons w₂ ws₂ =>
      rw [show joinWith [s] (w :: w₂ :: ws₂)
          = w ++ [s] ++ joinWith [s] (w₂ :: ws₂) from rfl]
      rw [List.append_assoc]
      rw [show ([s] ++ joinWith [s] (w₂ :: ws₂))
          = s :: joinWith [s] (w₂ :: ws₂) from rfl]
      rw [titleChars_append]
      rw [show titleChars (casedAfter false w) (s :: joinWith [s] (w₂ :: ws₂))
          = s :: titleChars false (joinWith [s] (w₂ :: ws₂)) by
        simp only [titleChars, hs, Bool.false_eq_true, if_false]]
      rw [ih]
      rw [show joinWith [s] ((w :: w₂ :: ws₂).map (titleChars false))
          = titleChars false w ++ [s]
            ++ joinWith [s] ((w₂ :: ws₂).map (titleChars false)) from rfl]
      rw [List.append_assoc]
      rfl

theorem joinWith_underscore_noDU :
    ∀ (ws : List (List Char)), (∀ w ∈ ws, w ≠ [] ∧ ∀ c ∈ w, c ≠ '_') →
      noDU (joinWith ['_'] ws) := by
  intro ws
  induction ws with
  | nil => intro _; exact List.chain'_nil
  | cons w ws₂ ih =>
    intro h
    cases ws₂ with
    | nil => exact noDU_of_no_underscore w (h w (by simp)).2
    | cons w₂ ws₃ =>
      rw [show joinWith ['_'] (w :: w₂ :: ws₃)
          = w ++ ['_'] ++ joinWith ['_'] (w₂ :: ws₃) from rfl]
      rw [List.append_assoc]
      refine List.chain'_append.mpr ⟨noDU_of_no_underscore w (h w (by simp)).2, ?_, ?_⟩
      · refine List.chain'_append.mpr ⟨List.chain'_singleton '_', ?_, ?_⟩
        · exact ih (fun u hu => h u (by simp [List.mem_cons.mp hu]))
        · intro x hx y hy hand
          have hhd : (joinWith ['_'] (w₂ :: ws₃)).head? ≠ some '_' :=
            joinWith_head?_ne '_' (w₂ :: ws₃)
              (fun u hu => h u (by simp [List.mem_cons.mp hu]))
          rw [hy] at hhd
          exact hhd (by rw [hand.2])
      · intro x hx y hy hand
        have hxw : x ∈ w := getLast?_mem_self w x hx
        exact (h w (by simp)).2 x hxw hand.1

theorem isAsciiAlpha_pyLowerChar (c : Char) (h : isAsciiAlpha c = true) :
    isAsciiAlpha (pyLowerChar c) = true := by
  rcases Bool.or_eq_true_iff.mp h with hl | hu
  · rw [pyLowerChar_eq_of_lower c hl]
    exact h
  · exact isAsciiAlpha_pyLowerChar_of_upper c hu

theorem nc_name_roundtrip_chars (parts : List (List (List Char)))
    (hp : ∀ p ∈ parts, ∀ w ∈ p, titleWord w = true) :
    titleChars false (replaceChars1 '_' [' '] (replaceChars2 '_' '_' ['|']
      ((replaceChars1 ' ' ['_'] (replaceChars1 '|' ['_', '_']
        (buildVar parts))).map pyLowerChar))) = buildVar parts := by
  have hword : ∀ p ∈ parts, ∀ w ∈ p, w ≠ [] ∧ (∀ c ∈ w, isAsciiAlpha c = true) := by
    intro p hpp w hw
    have htw := hp p hpp w hw
    cases w with
    | nil => simp [titleWord] at htw
    | cons c rest =>
      simp only [titleWord, Bool.and_eq_true, List.all_eq_true] at htw
      refine ⟨by simp, ?_⟩
      intro x hx
      rcases List.mem_cons.mp hx with rfl | hxr
      · simp [isAsciiAlpha, htw.1]
      · exact isAsciiAlpha_of_lower x (htw.2 x hxr)
  have hlw : ∀ p ∈ parts, ∀ u ∈ p.map (List.map pyLowerChar), u ≠ [] ∧ ∀ c ∈ u, c ≠ '_' := by
    intro p hpp u hu
    rcases List.mem_map.mp hu with ⟨w, hw, rfl⟩
    rcases hword p hpp w hw with ⟨hwne, hwal⟩
    refine ⟨by simpa using hwne, ?_⟩
    intro c hc
    rcases List.mem_map.mp hc with ⟨x, hx, rfl⟩
    exact ne_of_alpha _ (isAsciiAlpha_pyLowerChar x (hwal x hx)) '_' (by decide)
  have h1 : replaceChars1 '|' ['_', '_'] (buildVar parts)
      = joinWith ['_', '_'] (parts.map (joinWith [' '])) := by
    refine replaceChars1_joinWith_sep '|' ['_', '_'] (parts.map (joinWith [' '])) ?_
    intro seg hseg c hc
    rcases List.mem_map.mp hseg with ⟨p, hpp, rfl⟩
    rcases mem_joinWith ' ' p c hc with rfl | ⟨w, hw, hcw⟩
    · decide
    · exact ne_of_alpha c ((hword p hpp w hw).2 c hcw) '|' (by decide)
  have h2 : replaceChars1 ' ' ['_'] (joinWith ['_', '_'] (parts.map (joinWith [' '])))
      = joinWith ['_', '_'] (parts.map (fun p => joinWith ['_'] p)) := by
    rw [replaceChars1_joinWith, show replaceChars1 ' ' ['_'] ['_', '_'] = ['_', '_'] from by decide,
      List.map_map]
    congr 1
    apply List.map_congr_left
    intro p hpp
    show replaceChars1 ' ' ['_'] (joinWith [' '] p) = joinWith ['_'] p
    exact replaceChars1_joinWith_sep ' ' ['_'] p
      (fun w hw c hc => ne_of_alpha c ((hword p hpp w hw).2 c hc) ' ' (by decide))
  have h3 : (joinWith ['_', '_'] (parts.map (fun p => joinWith ['_'] p))).map pyLowerChar
      = joinWith ['_', '_'] (parts.map (fun p => joinWith ['_'] (p.map (List.map pyLowerChar)))) := by
    rw [map_joinWith, show ['_', '_'].map pyLowerChar = ['_', '_'] from by decide, List.map_map]
    congr 1
    apply List.map_congr_left
    intro p hpp
    show (joinWith ['_'] p).map pyLowerChar = joinWith ['_'] (p.map (List.map pyLowerChar))
    rw [map_joinWith, show ['_'].map pyLowerChar = ['_'] from by decide]
  have h4 : replaceChars2 '_' '_' ['|']
      (joinWith ['_', '_'] (parts.map (fun p => joinWith ['_'] (p.map (List.map pyLowerChar)))))
      = joinWith ['|'] (parts.map (fun p => joinWith ['_'] (p.map (List.map pyLowerChar)))) := by
    refine replaceChars2_joinWith_sep ['|'] _ ?_
    intro seg hseg
    rcases List.mem_map.mp hseg with ⟨p, hpp, rfl⟩
    exact ⟨joinWith_underscore_noDU _ (hlw p hpp), joinWith_getLast?_ne '_' _ (hlw p hpp)⟩
  have h5 : replaceChars1 '_' [' ']
      (joinWith ['|'] (parts.map (fun p => joinWith ['_'] (p.map (List.map pyLowerChar)))))
      = joinWith ['|'] (parts.map (fun p => joinWith [' '] (p.map (List.map pyLowerChar)))) := by
    rw [replaceChars1_joinWith, show replaceChars1 '_' [' '] ['|'] = ['|'] from by decide,
      List.map_map]
    congr 1
    apply List.map_congr_left
    intro p hpp
    show replaceChars1 '_' [' '] (joinWith ['_'] (p.map (List.map pyLowerChar)))
        = joinWith [' '] (p.map (List.map pyLowerChar))
    exact replaceChars1_joinWith_sep '_' [' '] _ (fun u hu c hc => (hlw p hpp u hu).2 c hc)
  have h6 : titleChars false
      (joinWith ['|'] (parts.map (fun p => joinWith [' '] (p.map (List.map pyLowerChar)))))
      = buildVar parts := by
    rw [titleChars_joinWith '|' (by decide), List.map_map]
    congr 1
    apply List.map_congr_left
    intro p hpp
    show titleChars false (joinWith [' '] (p.map (List.map pyLowerChar))) = joinWith [' '] p
    rw [titleChars_joinWith ' ' (by decide), List.map_map]
    congr 1
    rw [show p.map (titleChars false ∘ List.map pyLowerChar) = p.map id from
      List.map_congr_left (fun w hw => titleWord_restore w (hp p hpp w hw))]
    exact List.map_id p
  rw [h1, h2, h3, h4, h5, h6]

theorem nc_name_roundtrip (parts : List (List (List Char)))
    (h : titleSafeParts parts = true) :
    nc_to_var (var_to_nc (String.mk (buildVar parts))) = String.mk (buildVar parts) := by
  have hp : ∀ p ∈ parts, ∀ w ∈ p, titleWord w = true := by
    simp only [titleSafeParts, Bool.and_eq_true, List.all_eq_true] at h
    intro p hpp w hw
    exact (h.2 p hpp).2 w hw
  apply String.ext
  show titleChars false (replaceChars1 '_' [' '] (replaceChars2 '_' '_' ['|']
      ((replaceChars1 ' ' ['_'] (replaceChars1 '|' ['_', '_']
        (buildVar parts))).map pyLowerChar))) = buildVar parts
  exact nc_name_roundtrip_chars parts hp

section ContainerLemmas

variable {α β γ : Type _}

theorem exceptMap_eq_map (f : α → Except String β) (g : α → β) :
    ∀ l : List α, (∀ a ∈ l, f a = Except.ok (g a)) →
      exceptMap f l = Except.ok (l.map g) := by
  intro l
  induction l with
  | nil => intro _; rfl
  | cons a l ih =>
    intro h
    have ha := h a (by simp)
    have hl := ih (fun x hx => h x (by simp [hx]))
    simp [exceptMap, ha, hl]

theorem exceptMap_ok_forall₂ (f : α → Except String β) (P : α → β → Prop) :
    ∀ l : List α, (∀ a ∈ l, ∃ b, f a = Except.ok b ∧ P a b) →
      ∃ bs, exceptMap f l = Except.ok bs ∧ List.Forall₂ P l bs := by
  intro l
  induction l with
  | nil => intro _; exact ⟨[], rfl, List.Forall₂.nil⟩
  | cons a l ih =>
    intro h
    rcases h a (by simp) with ⟨b, hfa, hPab⟩
    rcases ih (fun x hx => h x (by simp [hx])) with ⟨bs, hl, hF⟩
    refine ⟨b :: bs, ?_, List.Forall₂.cons hPab hF⟩
    simp [exceptMap, hfa, hl]

theorem dedupFirst_const [DecidableEq α] (a : α) :
    ∀ l : List α, l ≠ [] → (∀ x ∈ l, x = a) → dedupFirst l = [a] := by
  intro l
  induction l with
  | nil => intro h _; exact absurd rfl h
  | cons x xs ih =>
    intro _ hall
    have hx : x = a := hall x (by simp)
    subst hx
    cases xs with
    | nil => rfl
    | cons y ys =>
      have hrec : dedupFirst (y :: ys) = [x] :=
        ih (by simp) (fun z hz => hall z (by simp [List.mem_cons.mp hz]))
      simp only [dedupFirst] at hrec ⊢
      rw [hrec]
      simp

theorem dedupFirst_flatMap_const [DecidableEq β] (K : List β) (hK : K.Nodup)
    (f : α → List β) :
    ∀ l : List α, l ≠ [] → (∀ t ∈ l, f t = K) →
      dedupFirst (l.flatMap f) = K := by
  intro l hne hall
  cases l with
  | nil => exact absurd rfl hne
  | cons t₀ rest =>
    rw [List.flatMap_cons, hall t₀ (by simp)]
    rw [dedupFirst_append_of_subset K.length K (rest.flatMap f) (le_refl _) ?_]
    · exact dedupFirst_eq_self_of_nodup K hK
    · intro x hx
      rcases List.mem_flatMap.mp hx with ⟨t, ht, hxt⟩
      rw [hall t (by simp [ht])] at hxt
      exact hxt

theorem find?_key_eq_some_of_nodup [DecidableEq β] (f : α → β) :
    ∀ l : List α, (l.map f).Nodup → ∀ t ∈ l,
      l.find? (fun u => decide (f u = f t)) = some t := by
  intro l
  induction l with
  | nil => intro _ t ht; simp at ht
  | cons x xs ih =>
    intro h t ht
    rw [List.map_cons] at h
    rcases List.nodup_cons.mp h with ⟨hx, hxs⟩
    rcases List.mem_cons.mp ht with rfl | htl
    · simp [List.find?]
    · have hne : f x ≠ f t := by
        intro he
        exact hx (he ▸ List.mem_map_of_mem f htl)
      rw [List.find?_cons_of_neg _ (by simpa using hne)]
      exact ih hxs t htl

theorem find?_key_eq_none [DecidableEq β] (f : α → β) (m : β) (l : List α)
    (h : m ∉ l.map f) : l.find? (fun u => decide (f u = m)) = none := by
  refine List.find?_eq_none.mpr ?_
  intro x hx
  simp only [decide_eq_true_eq]
  intro he
  exact h (he ▸ List.mem_map_of_mem f hx)

theorem perm_of_nodup_of_mem_iff [DecidableEq α] {l₁ l₂ : List α}
    (h₁ : l₁.Nodup) (h₂ : l₂.Nodup) (h : ∀ x, x ∈ l₁ ↔ x ∈ l₂) : l₁.Perm l₂ := by
  rw [List.perm_iff_count]
  intro a
  by_cases ha : a ∈ l₁
  · rw [List.count_eq_one_of_mem h₁ ha, List.count_eq_one_of_mem h₂ ((h a).mp ha)]
  · rw [List.count_eq_zero_of_not_mem ha,
      List.count_eq_zero_of_not_mem (fun hc => ha ((h a).mpr hc))]

theorem filterMap_ite (p : α → Bool) (h : α → β) :
    ∀ l : List α,
      l.filterMap (fun x => if p x = true then none else some (h x))
        = (l.filter (fun x => !p x)).map h := by
  intro l
  induction l with
  | nil => rfl
  | cons a l ih =>
    by_cases hpa : p a = true
    · simp [List.filterMap_cons, List.filter_cons, hpa, ih]
    · have hpa' : p a = false := by simpa using hpa
      simp [List.filterMap_cons, List.filter_cons, hpa', ih]

theorem flatMap_filter_perm [DecidableEq β] (f : α → β) :
    ∀ (keys : List β) (l : List α), keys.Nodup → (∀ t ∈ l, f t ∈ keys) →
      (keys.flatMap (fun v => l.filter (fun t => decide (f t = v)))).Perm l := by
  intro keys
  induction keys with
  | nil =>
    intro l _ hcov
    cases l with
    | nil => simp
    | cons t ts => exact absurd (hcov t (by simp)) (by simp)
  | cons k ks ih =>
    intro l hk hcov
    rcases List.nodup_cons.mp hk with ⟨hkk, hks⟩
    rw [List.flatMap_cons]
    have hsw : ∀ v ∈ ks, l.filter (fun t => decide (f t = v))
        = (l.filter (fun t => !(decide (f t = k)))).filter (fun t => decide (f t = v)) := by
      intro v hv
      rw [List.filter_comm, Eq.comm, List.filter_eq_self]
      intro t ht
      have hftv : f t = v := by simpa using (List.mem_filter.mp ht).2
      have hvk : v ≠ k := fun he => hkk (he ▸ hv)
      simp [hftv, hvk]
    have htail : ks.flatMap (fun v => l.filter (fun t => decide (f t = v)))
        = ks.flatMap (fun v =>
            (l.filter (fun t => !(decide (f t = k)))).filter (fun t => decide (f t = v))) := by
      rw [List.flatMap_def, List.flatMap_def]
      congr 1
      exact List.map_congr_left hsw
    rw [htail]
    have hrec := ih (l.filter (fun t => !(decide (f t = k)))) hks ?_
    · exact List.Perm.trans (List.Perm.append (List.Perm.refl _) hrec)
        (List.filter_append_perm (fun t => decide (f t = k)) l)
    · intro t ht
      rcases List.mem_filter.mp ht with ⟨htl, hne⟩
      have : f t ≠ k := by simpa using hne
      rcases List.mem_cons.mp (hcov t htl) with he | hm
      · exact absurd he this
      · exact hm

end ContainerLemmas

theorem lexLeChars_cons_eq (x y : Char) (xs ys : List Char) :
    lexLeChars (x :: xs) (y :: ys)
      = if x.toNat < y.toNat then true
        else if x.toNat = y.toNat then lexLeChars xs ys else false := rfl

theorem lexLeChars_total : ∀ (a b : List Char),
    lexLeChars a b = true ∨ lexLeChars b a = true := by
  intro a
  induction a with
  | nil => intro b; exact Or.inl rfl
  | cons x xs ih =>
    intro b
    cases b with
    | nil => exact Or.inr rfl
    | cons y ys =>
      by_cases h1 : x.toNat < y.toNat
      · left
        rw [lexLeChars_cons_eq, if_pos h1]
      · by_cases h2 : x.toNat = y.toNat
        · rcases ih ys with h | h
          · left
            rw [lexLeChars_cons_eq, if_neg h1, if_pos h2]
            exact h
          · right
            rw [lexLeChars_cons_eq, if_neg (by omega), if_pos (by omega)]
            exact h
        · right
          rw [lexLeChars_cons_eq, if_pos (by omega)]

theorem lexLeChars_trans : ∀ (a b c : List Char),
    lexLeChars a b = true → lexLeChars b c = true → lexLeChars a c = true := by
  intro a
  induction a with
  | nil => intro b c _ _; rfl
  | cons x xs ih =>
    intro b c hab hbc
    cases b with
    | nil => simp [lexLeChars] at hab
    | cons y ys =>
      cases c with
      | nil => simp [lexLeChars] at hbc
      | cons z zs =>
        rw [lexLeChars_cons_eq] at hab hbc
        rw [lexLeChars_cons_eq]
        by_cases h1 : x.toNat < y.toNat
        · by_cases h2 : y.toNat < z.toNat
          · rw [if_pos (by omega)]
          · by_cases h3 : y.toNat = z.toNat
            · rw [if_pos (by omega)]
            · rw [if_neg h2, if_neg h3] at hbc
              exact absurd hbc (by simp)
        · by_cases h4 : x.toNat = y.toNat
          · rw [if_neg h1, if_pos h4] at hab
            by_cases h2 : y.toNat < z.toNat
            · rw [if_pos (by omega)]
            · by_cases h3 : y.toNat = z.toNat
              · rw [if_neg h2, if_pos h3] at hbc
                rw [if_neg (by omega), if_pos (by omega)]
                exact ih ys zs hab hbc
              · rw [if_neg h2, if_neg h3] at hbc
                exact absurd hbc (by simp)
          · rw [if_neg h1, if_neg h4] at hab
            exact absurd hab (by simp)

theorem lexLeChars_antisymm : ∀ (a b : List Char),
    lexLeChars a b = true → lexLeChars b a = true → a = b := by
  intro a
  induction a with
  | nil =>
    intro b _ hba
    cases b with
    | nil => rfl
    | cons y ys => simp [lexLeChars] at hba
  | cons x xs ih =>
    intro b hab hba
    cases b with
    | nil => simp [lexLeChars] at hab
    | cons y ys =>
      rw [lexLeChars_cons_eq] at hab hba
      by_cases h1 : x.toNat < y.toNat
      · rw [if_neg (by omega), if_neg (by omega)] at hba
        exact absurd hba (by simp)
      · by_cases h2 : x.toNat = y.toNat
        · rw [if_neg h1, if_pos h2] at hab
          rw [if_neg (by omega), if_pos (by omega)] at hba
          have hxy : x = y := char_toNat_inj h2
          rw [hxy, ih ys hab hba]
        · rw [if_neg h1, if_neg h2] at hab
          exact absurd hab (by simp)

theorem strLe_total (s t : String) : strLe s t = true ∨ strLe t s = true :=
  lexLeChars_total s.data t.data

theorem strLe_trans {a b c : String} (h1 : strLe a b = true) (h2 : strLe b c = true) :
    strLe a c = true :=
  lexLeChars_trans a.data b.data c.data h1 h2

theorem strLe_antisymm {a b : String} (h1 : strLe a b = true) (h2 : strLe b a = true) :
    a = b :=
  String.ext (lexLeChars_antisymm a.data b.data h1 h2)

theorem insertLe_pairwise {α : Type _} (le : α → α → Bool)
    (htot : ∀ a b, le a b = true ∨ le b a = true)
    (htrans : ∀ a b c, le a b = true → le b c = true → le a c = true) (x : α) :
    ∀ l : List α, l.Pairwise (fun a b => le a b = true) →
      (insertLe le x l).Pairwise (fun a b => le a b = true) := by
  intro l
  induction l with
  | nil => intro _; simp [insertLe]
  | cons y ys ih =>
    intro h
    rcases List.pairwise_cons.mp h with ⟨hy, hys⟩
    by_cases hxy : le x y = true
    · rw [show insertLe le x (y :: ys) = x :: y :: ys from by simp [insertLe, hxy]]
      refine List.pairwise_cons.mpr ⟨?_, h⟩
      intro z hz
      rcases List.mem_cons.mp hz with rfl | hzys
      · exact hxy
      · exact htrans x y z hxy (hy z hzys)
    · have hxy' : le x y = false := by simpa using hxy
      have hyx : le y x = true := by
        rcases htot x y with h' | h'
        · exact absurd h' hxy
        · exact h'
      rw [show insertLe le x (y :: ys) = y :: insertLe le x ys from by simp [insertLe, hxy']]
      refine List.pairwise_cons.mpr ⟨?_, ih hys⟩
      intro z hz
      have hz' : z ∈ x :: ys := (insertLe_perm le x ys).mem_iff.mp hz
      rcases List.mem_cons.mp hz' with rfl | hzys
      · exact hyx
      · exact hy z hzys

theorem sortLe_pairwise {α : Type _} (le : α → α → Bool)
    (htot : ∀ a b, le a b = true ∨ le b a = true)
    (htrans : ∀ a b c, le a b = true → le b c = true → le a c = true) :
    ∀ l : List α, (sortLe le l).Pairwise (fun a b => le a b = true) := by
  intro l
  induction l with
  | nil => simp [sortLe]
  | cons x xs ih =>
    simp only [sortLe, List.foldr_cons]
    exact insertLe_pairwise le htot htrans x _ ih

/-- Strict comparison of metadata pairs by key, used to identify the sorted
canonical forms of two permuted metadata mappings. -/
def metaKeyLt (a b : String × MVal) : Prop := strLe a.1 b.1 = true ∧ a.1 ≠ b.1

instance : IsAntisymm (String × MVal) metaKeyLt :=
  ⟨fun _ _ hab hba => absurd (strLe_antisymm hab.1 hba.1) hab.2⟩

theorem canonMeta_perm_self (m : Meta) : (canonMeta m).Perm m :=
  sortLe_perm (fun a b : String × MVal => strLe a.1 b.1) m

theorem canonMeta_pairwise_lt (m : Meta) (hn : (m.map Prod.fst).Nodup) :
    (canonMeta m).Pairwise metaKeyLt := by
  have hle : (canonMeta m).Pairwise (fun a b : String × MVal => strLe a.1 b.1 = true) :=
    sortLe_pairwise (fun a b : String × MVal => strLe a.1 b.1)
      (fun a b => strLe_total a.1 b.1)
      (fun a b c hab hbc => strLe_trans hab hbc) m
  have hkeys : ((canonMeta m).map Prod.fst).Nodup :=
    (((canonMeta_perm_self m).map Prod.fst).nodup_iff).mpr hn
  have hne : (canonMeta m).Pairwise (fun a b : String × MVal => a.1 ≠ b.1) :=
    List.pairwise_map.mp hkeys
  exact (hle.and hne).imp (fun h => ⟨h.1, h.2⟩)

theorem canonMeta_eq_of_perm (m₁ m₂ : Meta) (h : m₁.Perm m₂)
    (hn : (m₁.map Prod.fst).Nodup) : canonMeta m₁ = canonMeta m₂ := by
  have hn₂ : (m₂.map Prod.fst).Nodup := ((h.map Prod.fst).nodup_iff).mp hn
  have hperm : (canonMeta m₁).Perm (canonMeta m₂) :=
    ((canonMeta_perm_self m₁).trans h).trans (canonMeta_perm_self m₂).symm
  exact List.eq_of_perm_of_sorted hperm (canonMeta_pairwise_lt m₁ hn)
    (canonMeta_pairwise_lt m₂ hn₂)

theorem metaLookup_cons_self (k : String) (v : MVal) (rest : Meta) :
    metaLookup ((k, v) :: rest) k = v := by
  simp [metaLookup, List.lookup_cons]

theorem metaLookup_cons_ne (k : String) (v : MVal) (rest : Meta) (c : String)
    (h : c ≠ k) : metaLookup ((k, v) :: rest) c = metaLookup rest c := by
  have hb : (c == k) = false := beq_eq_false_iff_ne.mpr h
  simp [metaLookup, List.lookup_cons, hb]

theorem meta_reconstruct : ∀ (m : Meta) (K : List String),
    m.map Prod.fst = K → K.Nodup → m = K.map (fun k => (k, metaLookup m k)) := by
  intro m
  induction m with
  | nil =>
    intro K hK _
    rw [← hK]
    rfl
  | cons a rest ih =>
    intro K hK hnd
    obtain ⟨k₀, v₀⟩ := a
    rw [List.map_cons] at hK
    subst hK
    rcases List.nodup_cons.mp hnd with ⟨hk₀, hrest⟩
    rw [List.map_cons]
    have htail : (rest.map Prod.fst).map (fun k => (k, metaLookup ((k₀, v₀) :: rest) k))
        = (rest.map Prod.fst).map (fun k => (k, metaLookup rest k)) := by
      apply List.map_congr_left
      intro k hk
      have hne : k ≠ k₀ := fun he => hk₀ (he ▸ hk)
      rw [metaLookup_cons_ne k₀ v₀ rest k hne]
    rw [htail, metaLookup_cons_self, ← ih (rest.map Prod.fst) rfl hrest]

theorem keys_perm_region_variable (K : List String) (hK : K.Nodup)
    (hr : "region" ∈ K) (hv : "variable" ∈ K) :
    K.Perm ("region" :: "variable"
      :: K.filter (fun k => decide (k ≠ "variable") && decide (k ≠ "region"))) := by
  rw [List.perm_iff_count]
  intro a
  rw [List.count_cons, List.count_cons]
  by_cases h1 : a = "region"
  · subst h1
    rw [List.count_eq_one_of_mem hK hr]
    have hnot : "region" ∉ K.filter
        (fun k => decide (k ≠ "variable") && decide (k ≠ "region")) := by
      intro hc
      have := (List.mem_filter.mp hc).2
      simp at this
    rw [List.count_eq_zero_of_not_mem hnot]
    rw [show (("variable" : String) == "region") = false from by decide]
    rw [show (("region" : String) == "region") = true from by decide]
    simp
  · by_cases h2 : a = "variable"
    · subst h2
      rw [List.count_eq_one_of_mem hK hv]
      have hnot : "variable" ∉ K.filter
          (fun k => decide (k ≠ "variable") && decide (k ≠ "region")) := by
        intro hc
        have := (List.mem_filter.mp hc).2
        simp at this
      rw [List.count_eq_zero_of_not_mem hnot]
      rw [show (("variable" : String) == "variable") = true from by decide]
      rw [show (("region" : String) == "variable") = false from by decide]
      simp
    · rw [List.count_filter (by simp [h1, h2])]
      rw [show (("variable" : String) == a) = false from
        beq_eq_false_iff_ne.mpr (fun he => h2 he.symm)]
      rw [show (("region" : String) == a) = false from
        beq_eq_false_iff_ne.mpr (fun he => h1 he.symm)]
      simp

theorem mem_sortedUniqueM (x : MVal) (l : List MVal) :
    x ∈ sortedUniqueM l ↔ x ∈ l :=
  (sortLe_perm mvalLe (dedupFirst l)).mem_iff.trans (mem_dedupFirst x l)

theorem nodup_sortedUniqueM (l : List MVal) : (sortedUniqueM l).Nodup :=
  ((sortLe_perm mvalLe (dedupFirst l)).nodup_iff).mpr (dedupFirst_nodup l)

theorem runPairs_enum (ts : List TimeSeries) :
    ((ts.enum.map (fun p => { p.2 with name := p.1 })).map
      (fun t => (canonMeta t.meta, t.values)))
      = ts.map (fun t => (canonMeta t.meta, t.values)) := by
  rw [List.map_map]
  have h : ∀ p ∈ ts.enum, ((fun t => (canonMeta t.meta, t.values))
      ∘ (fun p : Nat × TimeSeries => { p.2 with name := p.1 })) p
      = ((fun t => (canonMeta t.meta, t.values)) ∘ Prod.snd) p := fun p _ => rfl
  rw [List.map_congr_left h, ← List.map_map, List.enum_map_snd]

theorem zip_map_self {α β : Type _} (f : α → β) :
    ∀ l : List α, l.zip (l.map f) = l.map (fun x => (x, f x)) := by
  intro l
  induction l with
  | nil => rfl
  | cons x l ih => simp [ih]

theorem all_none_replicate (n : Nat) :
    (List.replicate n (none : Option Rat)).all (fun x => decide (x = none)) = true := by
  rw [List.all_eq_true]
  intro x hx
  rw [List.eq_of_mem_replicate hx]
  simp

theorem group_regions_nodup (df : ScmRun)
    (hpair : (df.ts.map (fun t => (variableOf t, regionOf t))).Nodup) (v : MVal) :
    ((df.ts.filter (fun t => decide (variableOf t = v))).map regionOf).Nodup := by
  have hsub : ((df.ts.filter (fun t => decide (variableOf t = v))).map
      (fun t => (variableOf t, regionOf t))).Sublist
      (df.ts.map (fun t => (variableOf t, regionOf t))) :=
    (List.filter_sublist _).map _
  have hgn : ((df.ts.filter (fun t => decide (variableOf t = v))).map
      (fun t => (variableOf t, regionOf t))).Nodup :=
    List.Nodup.sublist hsub hpair
  rw [show (df.ts.filter (fun t => decide (variableOf t = v))).map regionOf
      = ((df.ts.filter (fun t => decide (variableOf t = v))).map
          (fun t => (variableOf t, regionOf t))).map Prod.snd from by
    rw [List.map_map]
    exact List.map_congr_left (fun t ht => rfl)]
  refine List.Nodup.map_on ?_ hgn
  intro x hx y hy hxy
  rcases List.mem_map.mp hx with ⟨t, ht, rfl⟩
  rcases List.mem_map.mp hy with ⟨u, hu, rfl⟩
  have htv : variableOf t = v := by simpa using (List.mem_filter.mp ht).2
  have huv : variableOf u = v := by simpa using (List.mem_filter.mp hu).2
  have hr : regionOf t = regionOf u := hxy
  rw [htv, huv, hr]

theorem flatMap_perm_of_forall₂ {α β γ : Type _} {P : α → β → Prop}
    (g : β → List γ) (h : α → List γ) :
    ∀ {l : List α} {V : List β}, List.Forall₂ P l V →
      (∀ a b, P a b → (g b).Perm (h a)) → (V.flatMap g).Perm (l.flatMap h) := by
  intro l V hF hgh
  induction hF with
  | nil => simp
  | @cons a b l' V' hPab hF ih =>
    rw [List.flatMap_cons, List.flatMap_cons]
    exact (hgh a b hPab).append ih

/-- The data row `_write_nc` stores for one variable at one region value:
the matching series' values, or a NaN-filled row when the variable has no
series at that region. -/
def rowOf (df : ScmRun) (v : MVal) (rv : MVal) : List (Option Rat) :=
  match (df.ts.filter (fun t => decide (variableOf t = v))).find?
      (fun t => decide (regionOf t = rv)) with
  | some t => t.values
  | none => List.replicate df.time_points.length none

theorem writeVar_ok (df : ScmRun) (K : List String) (hK : K.Nodup)
    (hkeys : ∀ t ∈ df.ts, t.meta.map Prod.fst = K)
    (hattr : ∀ t ∈ df.ts, ∀ u ∈ df.ts, variableOf t = variableOf u →
      ∀ k ∈ K, k ≠ "region" → metaLookup t.meta k = metaLookup u.meta k)
    (hpair : (df.ts.map (fun t => (variableOf t, regionOf t))).Nodup)
    (s : String) (t₀ : TimeSeries) (ht₀ : t₀ ∈ df.ts)
    (hv₀ : variableOf t₀ = MVal.str s) :
    writeVar df (sortedUniqueM (df.ts.map regionOf)) (MVal.str s) = Except.ok
      { name := var_to_nc s
        attrs := (K.filter (fun k => decide (k ≠ "variable") && decide (k ≠ "region"))).map
          (fun k => (k, metaLookup t₀.meta k))
        data := (sortedUniqueM (df.ts.map regionOf)).map
          (rowOf df (MVal.str s)) } := by
  have ht₀g : t₀ ∈ df.ts.filter (fun t => decide (variableOf t = MVal.str s)) :=
    List.mem_filter.mpr ⟨ht₀, by simp [hv₀]⟩
  have hgne : df.ts.filter (fun t => decide (variableOf t = MVal.str s)) ≠ [] := by
    intro he
    rw [he] at ht₀g
    exact List.not_mem_nil t₀ ht₀g
  have hnd : ((df.ts.filter (fun t => decide (variableOf t = MVal.str s))).map regionOf).Nodup :=
    group_regions_nodup df hpair (MVal.str s)
  have hdup : hasDup ((df.ts.filter
      (fun t => decide (variableOf t = MVal.str s))).map regionOf) = false :=
    hasDup_eq_false_of_nodup _ hnd
  have hkeysflat : dedupFirst ((df.ts.filter
      (fun t => decide (variableOf t = MVal.str s))).flatMap
      (fun t => t.meta.map Prod.fst)) = K :=
    dedupFirst_flatMap_const K hK _ _ hgne
      (fun t ht => hkeys t (List.mem_filter.mp ht).1)
  have hinner : exceptMap (fun k =>
      if (dedupFirst ((df.ts.filter (fun t => decide (variableOf t = MVal.str s))).map
          (fun t => metaLookup t.meta k))).length ≠ 1 then
        Except.error "metadata is not unique for variable"
      else Except.ok (k, (dedupFirst ((df.ts.filter
          (fun t => decide (variableOf t = MVal.str s))).map
          (fun t => metaLookup t.meta k))).headD MVal.nan))
      (K.filter (fun k => decide (k ≠ "variable") && decide (k ≠ "region")))
      = Except.ok ((K.filter (fun k => decide (k ≠ "variable") && decide (k ≠ "region"))).map
          (fun k => (k, metaLookup t₀.meta k))) := by
    apply exceptMap_eq_map
    intro k hk
    have hkK : k ∈ K := (List.mem_filter.mp hk).1
    have hkr : k ≠ "region" := by
      have h2 := (List.mem_filter.mp hk).2
      simp at h2
      exact h2.2
    have hval : dedupFirst ((df.ts.filter (fun t => decide (variableOf t = MVal.str s))).map
        (fun t => metaLookup t.meta k)) = [metaLookup t₀.meta k] := by
      apply dedupFirst_const
      · intro he
        exact hgne (List.map_eq_nil_iff.mp he)
      · intro x hx
        rcases List.mem_map.mp hx with ⟨t, ht, rfl⟩
        have htd : t ∈ df.ts := (List.mem_filter.mp ht).1
        have htv : variableOf t = MVal.str s := by simpa using (List.mem_filter.mp ht).2
        exact hattr t htd t₀ ht₀ (htv.trans hv₀.symm) k hkK hkr
    rw [hval]
    simp
  simp only [writeVar, hdup, Bool.false_eq_true, if_false]
  rw [hkeysflat, hinner]
  rfl

/-- The underlying string of a string-valued metadata value. -/
def varStr : MVal → String
  | MVal.str s => s
  | _ => ""

theorem forall₂_mem_right {α β : Type _} {P : α → β → Prop} :
    ∀ {l : List α} {V : List β}, List.Forall₂ P l V → ∀ b ∈ V, ∃ a ∈ l, P a b := by
  intro l V hF
  induction hF with
  | nil => intro b hb; simp at hb
  | @cons a b l' V' hPab hF ih =>
    intro c hc
    rcases List.mem_cons.mp hc with rfl | hc2
    · exact ⟨a, by simp, hPab⟩
    · rcases ih c hc2 with ⟨a', ha', hPa'⟩
      exact ⟨a', by simp [ha'], hPa'⟩

theorem map_eq_of_forall₂ {α β γ : Type _} {P : α → β → Prop} (g : β → γ) (h : α → γ) :
    ∀ {l : List α} {V : List β}, List.Forall₂ P l V →
      (∀ a b, P a b → g b = h a) → V.map g = l.map h := by
  intro l V hF hgh
  induction hF with
  | nil => rfl
  | @cons a b l' V' hPab hF ih =>
    rw [List.map_cons, List.map_cons, hgh a b hPab, ih]

theorem mem_readVar_meta (f : NcFile) (nv : NcVariable) (t : TimeSeries)
    (ht : t ∈ readVar f nv) :
    ∃ rv, t.meta = ("region", rv) :: ("variable", MVal.str (nc_to_var nv.name))
      :: nv.attrs.filter (fun a => !(leadsWith ['_'] a.1.data)) := by
  rcases List.mem_filterMap.mp ht with ⟨p, hp, heq⟩
  by_cases hc : p.2.all (fun x => decide (x = none)) = true
  · rw [if_pos hc] at heq
    exact absurd heq (by simp)
  · rw [if_neg hc] at heq
    have h2 := Option.some.inj heq
    exact ⟨p.1, by rw [← h2]⟩

theorem write_nc_ok (df : ScmRun) (K : List String) (hK : K.Nodup)
    (hne : df.ts ≠ [])
    (hkeys : ∀ t ∈ df.ts, t.meta.map Prod.fst = K)
    (hattr : ∀ t ∈ df.ts, ∀ u ∈ df.ts, variableOf t = variableOf u →
      ∀ k ∈ K, k ≠ "region" → metaLookup t.meta k = metaLookup u.meta k)
    (hpair : (df.ts.map (fun t => (variableOf t, regionOf t))).Nodup)
    (hvar : ∀ t ∈ df.ts, ∃ parts, titleSafeParts parts = true ∧
      variableOf t = MVal.str (String.mk (buildVar parts)) ∧
      var_to_nc (String.mk (buildVar parts)) ≠ "time" ∧
      var_to_nc (String.mk (buildVar parts)) ≠ "region") :
    ∃ V, write_nc df = Except.ok
        { times := df.time_points
          regions := sortedUniqueM (df.ts.map regionOf)
          vars := V } ∧
      List.Forall₂ (fun v nv => ∃ s t₀, t₀ ∈ df.ts ∧ variableOf t₀ = v ∧
        v = MVal.str s ∧ nc_to_var (var_to_nc s) = s ∧
        var_to_nc s ≠ "time" ∧ var_to_nc s ≠ "region" ∧
        nv.name = var_to_nc s ∧
        nv.attrs = (K.filter (fun k => decide (k ≠ "variable")
          && decide (k ≠ "region"))).map (fun k => (k, metaLookup t₀.meta k)) ∧
        nv.data = (sortedUniqueM (df.ts.map regionOf)).map (rowOf df v))
        (dedupFirst (df.ts.map variableOf)) V := by
  have hall : ∀ v ∈ dedupFirst (df.ts.map variableOf),
      ∃ nv, writeVar df (sortedUniqueM (df.ts.map regionOf)) v = Except.ok nv ∧
        (∃ s t₀, t₀ ∈ df.ts ∧ variableOf t₀ = v ∧
          v = MVal.str s ∧ nc_to_var (var_to_nc s) = s ∧
          var_to_nc s ≠ "time" ∧ var_to_nc s ≠ "region" ∧
          nv.name = var_to_nc s ∧
          nv.attrs = (K.filter (fun k => decide (k ≠ "variable")
            && decide (k ≠ "region"))).map (fun k => (k, metaLookup t₀.meta k)) ∧
          nv.data = (sortedUniqueM (df.ts.map regionOf)).map (rowOf df v)) := by
    intro v hv
    have hvm : v ∈ df.ts.map variableOf := (mem_dedupFirst v _).mp hv
    rcases List.mem_map.mp hvm with ⟨t₀, ht₀, hveq⟩
    rcases hvar t₀ ht₀ with ⟨parts, hparts, hvstr, hntm, hnrg⟩
    have hsv : v = MVal.str (String.mk (buildVar parts)) := hveq ▸ hvstr
    subst hsv
    refine ⟨_, writeVar_ok df K hK hkeys hattr hpair (String.mk (buildVar parts))
      t₀ ht₀ hvstr, ?_⟩
    exact ⟨String.mk (buildVar parts), t₀, ht₀, hvstr, rfl,
      nc_name_roundtrip parts hparts, hntm, hnrg, rfl, rfl, rfl⟩
  rcases exceptMap_ok_forall₂ (writeVar df (sortedUniqueM (df.ts.map regionOf))) _
    (dedupFirst (df.ts.map variableOf)) hall with ⟨V, hmap, hF⟩
  have hie : df.ts.isEmpty = false := by
    cases hts : df.ts with
    | nil => exact absurd hts hne
    | cons a l => rfl
  have hvv : ∀ v ∈ dedupFirst (df.ts.map variableOf), ∃ parts,
      titleSafeParts parts = true ∧ v = MVal.str (String.mk (buildVar parts)) ∧
      var_to_nc (String.mk (buildVar parts)) ≠ "time" ∧
      var_to_nc (String.mk (buildVar parts)) ≠ "region" := by
    intro v hv
    rcases List.mem_map.mp ((mem_dedupFirst v _).mp hv) with ⟨t, ht, hveq⟩
    rcases hvar t ht with ⟨parts, h1, h2, h3, h4⟩
    exact ⟨parts, h1, by rw [← hveq]; exact h2, h3, h4⟩
  have hnamemap : V.map (fun nv => nv.name)
      = (dedupFirst (df.ts.map variableOf)).map (fun v => var_to_nc (varStr v)) := by
    refine map_eq_of_forall₂ _ _ hF ?_
    intro v nv hP
    rcases hP with ⟨s, t₀, _, _, hvs, _, _, _, hname, _, _⟩
    rw [hname, hvs]
    rfl
  have hnodup : ("time" :: "region" :: V.map (fun nv => nv.name)).Nodup := by
    rw [hnamemap]
    refine List.nodup_cons.mpr ⟨?_, List.nodup_cons.mpr ⟨?_, ?_⟩⟩
    · intro hmem
      rcases List.mem_cons.mp hmem with he | hmem2
      · exact absurd he (by decide)
      · rcases List.mem_map.mp hmem2 with ⟨v, hv, hveq⟩
        rcases hvv v hv with ⟨parts, _, hvs, hnt, _⟩
        rw [hvs] at hveq
        simp only [varStr] at hveq
        exact hnt hveq
    · intro hmem2
      rcases List.mem_map.mp hmem2 with ⟨v, hv, hveq⟩
      rcases hvv v hv with ⟨parts, _, hvs, _, hnr⟩
      rw [hvs] at hveq
      simp only [varStr] at hveq
      exact hnr hveq
    · refine List.Nodup.map_on ?_ (dedupFirst_nodup _)
      intro v₁ hv₁ v₂ hv₂ heq
      rcases hvv v₁ hv₁ with ⟨p₁, hp₁, hvs₁, _, _⟩
      rcases hvv v₂ hv₂ with ⟨p₂, hp₂, hvs₂, _, _⟩
      rw [hvs₁, hvs₂] at heq
      simp only [varStr] at heq
      have h2 := congrArg nc_to_var heq
      rw [nc_name_roundtrip p₁ hp₁, nc_name_roundtrip p₂ hp₂] at h2
      rw [hvs₁, hvs₂, h2]
  have hcol : hasDup ("time" :: "region" :: V.map (fun nv => nv.name)) = false :=
    hasDup_eq_false_of_nodup _ hnodup
  refine ⟨V, ?_, hF⟩
  simp only [write_nc, hie, Bool.false_eq_true, if_false, hmap, hcol]

theorem readVar_pairs_perm (df : ScmRun) (K : List String) (hK : K.Nodup)
    (hKvar : "variable" ∈ K) (hKreg : "region" ∈ K)
    (hKund : ∀ k ∈ K, leadsWith ['_'] k.data = false)
    (hkeys : ∀ t ∈ df.ts, t.meta.map Prod.fst = K)
    (hattr : ∀ t ∈ df.ts, ∀ u ∈ df.ts, variableOf t = variableOf u →
      ∀ k ∈ K, k ≠ "region" → metaLookup t.meta k = metaLookup u.meta k)
    (hpair : (df.ts.map (fun t => (variableOf t, regionOf t))).Nodup)
    (hvals : ∀ t ∈ df.ts, t.values.all (fun x => decide (x = none)) = false)
    (f : NcFile) (hfreg : f.regions = sortedUniqueM (df.ts.map regionOf))
    (nv : NcVariable) (v : MVal) (s : String) (t₀ : TimeSeries)
    (ht₀ : t₀ ∈ df.ts) (hv₀ : variableOf t₀ = v) (hvs : v = MVal.str s)
    (hname2 : nc_to_var (var_to_nc s) = s)
    (hname : nv.name = var_to_nc s)
    (hattrs : nv.attrs = (K.filter (fun k => decide (k ≠ "variable")
      && decide (k ≠ "region"))).map (fun k => (k, metaLookup t₀.meta k)))
    (hdata : nv.data = (sortedUniqueM (df.ts.map regionOf)).map (rowOf df v)) :
    ((readVar f nv).map (fun t => (canonMeta t.meta, t.values))).Perm
      ((df.ts.filter (fun t => decide (variableOf t = v))).map
        (fun t => (canonMeta t.meta, t.values))) := by
  have hgnodup : ((df.ts.filter (fun t => decide (variableOf t = v))).map regionOf).Nodup :=
    group_regions_nodup df hpair v
  have hmemgrp : ∀ t ∈ df.ts.filter (fun t => decide (variableOf t = v)),
      t ∈ df.ts ∧ variableOf t = v := by
    intro t ht
    exact ⟨(List.mem_filter.mp ht).1, by simpa using (List.mem_filter.mp ht).2⟩
  -- the per-region row of the data array
  have hrow : ∀ t ∈ df.ts.filter (fun t => decide (variableOf t = v)),
      rowOf df v (regionOf t) = t.values := by
    intro t ht
    simp only [rowOf]
    rw [find?_key_eq_some_of_nodup regionOf _ hgnodup t ht]
  -- step 1: readVar as a filterMap over the region axis
  rw [show readVar f nv = (f.regions.zip nv.data).filterMap (fun p =>
      if p.2.all (fun x => decide (x = none)) then none
      else some ({ name := 0
                   meta := ("region", p.1) :: ("variable", MVal.str (nc_to_var nv.name))
                     :: nv.attrs.filter (fun a => !(leadsWith ['_'] a.1.data))
                   times := f.times
                   values := p.2 } : TimeSeries)) from rfl]
  rw [hdata, hfreg, zip_map_self, List.filterMap_map]
  -- step 2: restate the composed function in if-then-else shape
  show ((List.filterMap (fun rv =>
      if (rowOf df v rv).all (fun x => decide (x = none)) = true then none
      else some ({ name := 0
                   meta := ("region", rv) :: ("variable", MVal.str (nc_to_var nv.name))
                     :: nv.attrs.filter (fun a => !(leadsWith ['_'] a.1.data))
                   times := f.times
                   values := rowOf df v rv } : TimeSeries))
      (sortedUniqueM (df.ts.map regionOf))).map
        (fun t => (canonMeta t.meta, t.values))).Perm
      ((df.ts.filter (fun t => decide (variableOf t = v))).map
        (fun t => (canonMeta t.meta, t.values)))
  rw [filterMap_ite]
  -- step 3: the kept region values are exactly the group's region values
  have hq : ∀ rv ∈ sortedUniqueM (df.ts.map regionOf),
      (!((rowOf df v rv).all (fun x => decide (x = none))))
        = decide (rv ∈ (df.ts.filter (fun t => decide (variableOf t = v))).map regionOf) := by
    intro rv hrv
    by_cases hm : rv ∈ (df.ts.filter (fun t => decide (variableOf t = v))).map regionOf
    · rcases List.mem_map.mp hm with ⟨t, ht, rfl⟩
      rw [hrow t ht]
      have hv2 := hvals t (hmemgrp t ht).1
      simp [hv2, hm]
    · simp only [rowOf]
      rw [find?_key_eq_none regionOf rv _ hm]
      simp [all_none_replicate, hm]
  rw [List.filter_congr hq]
  -- step 4: permutation between the filtered axis and the group's regions
  have hpermreg : ((sortedUniqueM (df.ts.map regionOf)).filter (fun rv =>
      decide (rv ∈ (df.ts.filter (fun t => decide (variableOf t = v))).map regionOf))).Perm
      ((df.ts.filter (fun t => decide (variableOf t = v))).map regionOf) := by
    apply perm_of_nodup_of_mem_iff
    · exact List.Nodup.filter _ (nodup_sortedUniqueM _)
    · exact hgnodup
    · intro x
      constructor
      · intro hx
        have := (List.mem_filter.mp hx).2
        simpa using this
      · intro hx
        refine List.mem_filter.mpr ⟨?_, by simpa using hx⟩
        rcases List.mem_map.mp hx with ⟨t, ht, rfl⟩
        exact (mem_sortedUniqueM _ _).mpr (List.mem_map_of_mem regionOf (hmemgrp t ht).1)
  rw [List.map_map]
  refine ((hpermreg.map _).trans ?_)
  rw [List.map_map]
  -- step 5: pointwise, each rebuilt series carries the original pairs
  apply List.Perm.of_eq
  apply List.map_congr_left
  intro t ht
  have htd : t ∈ df.ts := (hmemgrp t ht).1
  have htv : variableOf t = v := (hmemgrp t ht).2
  show ((fun t => (canonMeta t.meta, t.values)) ∘ (fun rv =>
      ({ name := 0
         meta := ("region", rv) :: ("variable", MVal.str (nc_to_var nv.name))
           :: nv.attrs.filter (fun a => !(leadsWith ['_'] a.1.data))
         times := f.times
         values := rowOf df v rv } : TimeSeries)))
      (regionOf t) = (canonMeta t.meta, t.values)
  simp only [Function.comp_apply]
  rw [hrow t ht]
  -- remaining: the canonical metadata agree
  have hmeta : canonMeta (("region", regionOf t)
      :: ("variable", MVal.str (nc_to_var nv.name))
      :: nv.attrs.filter (fun a => !(leadsWith ['_'] a.1.data)))
      = canonMeta t.meta := by
    have hfilt : nv.attrs.filter (fun a => !(leadsWith ['_'] a.1.data))
        = (K.filter (fun k => decide (k ≠ "variable") && decide (k ≠ "region"))).map
          (fun k => (k, metaLookup t₀.meta k)) := by
      rw [hattrs]
      rw [List.filter_eq_self.mpr]
      intro a ha
      rcases List.mem_map.mp ha with ⟨k, hk, rfl⟩
      rw [hKund k (List.mem_filter.mp hk).1]
      rfl
    have hlkup : (K.filter (fun k => decide (k ≠ "variable") && decide (k ≠ "region"))).map
        (fun k => (k, metaLookup t₀.meta k))
        = (K.filter (fun k => decide (k ≠ "variable") && decide (k ≠ "region"))).map
          (fun k => (k, metaLookup t.meta k)) := by
      apply List.map_congr_left
      intro k hk
      have hkK : k ∈ K := (List.mem_filter.mp hk).1
      have hkr : k ≠ "region" := by
        have h2 := (List.mem_filter.mp hk).2
        simp at h2
        exact h2.2
      rw [hattr t₀ ht₀ t htd (hv₀.trans htv.symm) k hkK hkr]
    have hvar2 : MVal.str (nc_to_var nv.name) = metaLookup t.meta "variable" := by
      rw [hname, hname2, ← hvs, ← htv]
      rfl
    have hreg2 : regionOf t = metaLookup t.meta "region" := rfl
    rw [hfilt, hlkup, hvar2, hreg2]
    have hshape : (("region", metaLookup t.meta "region")
        :: ("variable", metaLookup t.meta "variable")
        :: (K.filter (fun k => decide (k ≠ "variable") && decide (k ≠ "region"))).map
          (fun k => (k, metaLookup t.meta k)))
        = ("region" :: "variable"
          :: K.filter (fun k => decide (k ≠ "variable") && decide (k ≠ "region"))).map
          (fun k => (k, metaLookup t.meta k)) := by
      rw [List.map_cons, List.map_cons]
    rw [hshape]
    have hperm : (("region" :: "variable"
        :: K.filter (fun k => decide (k ≠ "variable") && decide (k ≠ "region"))).map
          (fun k => (k, metaLookup t.meta k))).Perm t.meta := by
      have hrec := meta_reconstruct t.meta K (hkeys t htd) hK
      have hKp := keys_perm_region_variable K hK hKreg hKvar
      nth_rewrite 2 [hrec]
      exact (hKp.map (fun k => (k, metaLookup t.meta k))).symm
    have hnod : ((("region" :: "variable"
        :: K.filter (fun k => decide (k ≠ "variable") && decide (k ≠ "region"))).map
          (fun k => (k, metaLookup t.meta k))).map Prod.fst).Nodup := by
      have hnt : (t.meta.map Prod.fst).Nodup := by
        rw [hkeys t htd]
        exact hK
      exact ((hperm.map Prod.fst).nodup_iff).mpr hnt
    exact canonMeta_eq_of_perm _ _ hperm hnod
  rw [hmeta]

/-- Metadata for the round-trip witness: the `Primary Energy` variable at
the `World` region. -/
def ncMetaWorld : Meta :=
  [("model", MVal.str "a_iam"), ("scenario", MVal.str "a_scenario"),
   ("region", MVal.str "World"), ("variable", MVal.str "Primary Energy"),
   ("unit", MVal.str "EJ/yr")]

/-- The same metadata at the `Asia` region, giving the witness container a
two-valued region axis (one value would be collapsed by `squeeze` on
read). -/
def ncMetaAsia : Meta :=
  [("model", MVal.str "a_iam"), ("scenario", MVal.str "a_scenario"),
   ("region", MVal.str "Asia"), ("variable", MVal.str "Primary Energy"),
   ("unit", MVal.str "EJ/yr")]

/-- Two-series, two-region witness container. -/
def nc2Run : ScmRun :=
  { time_points := [2005, 2010],
    ts := [{ name := 0, meta := ncMetaWorld, times := [2005, 2010],
             values := [some 1, some 2] },
           { name := 1, meta := ncMetaAsia, times := [2005, 2010],
             values := [some 3, some 4] }] }

/-- C3 (amended): the netCDF round trip `run_to_nc` / `nc_to_run` reproduces
exactly the (metadata, time, value) triples of the original container --
provided every variable name is *title-safe* (built from title-cased
alphabetic words separated by single spaces and hierarchy separators, so
the lower-casing write escape is undone by `str.title` on read) and its
escaped form collides with neither dimension variable `time` nor `region`,
the container is non-empty with at least two distinct region values (a
one-valued region axis is collapsed by `squeeze` on read and the read
raises; an empty container cannot even be written), every series has at
least one non-NaN value (all-NaN rows are dropped on read), all series
share one duplicate-free metadata key list containing the required columns
`model`, `scenario`, `region`, `variable` and `unit` with no key starting
with an underscore (leading-underscore attributes are dropped on read and
missing required columns make the read raise), (variable, region) pairs
are pairwise distinct, and series of the same variable agree on all
metadata other than `region` (those columns become shared variable
attributes).  The frozen claim, which asserts the round trip for every
variable name containing the hierarchy separator and spaces, is refuted by
`nc_round_trip_counterexample`. -/
theorem nc_round_trip (df : ScmRun) (K : List String)
    (hK : K.Nodup) (hKvar : "variable" ∈ K) (hKreg : "region" ∈ K)
    (hKmod : "model" ∈ K) (hKsc : "scenario" ∈ K) (hKunit : "unit" ∈ K)
    (hKund : ∀ k ∈ K, leadsWith ['_'] k.data = false)
    (hne : df.ts ≠ [])
    (hnreg : (sortedUniqueM (df.ts.map regionOf)).length ≠ 1)
    (hkeys : ∀ t ∈ df.ts, t.meta.map Prod.fst = K)
    (hattr : ∀ t ∈ df.ts, ∀ u ∈ df.ts, variableOf t = variableOf u →
      ∀ k ∈ K, k ≠ "region" → metaLookup t.meta k = metaLookup u.meta k)
    (hpair : (df.ts.map (fun t => (variableOf t, regionOf t))).Nodup)
    (hvals : ∀ t ∈ df.ts, t.values.all (fun x => decide (x = none)) = false)
    (hvar : ∀ t ∈ df.ts, ∃ parts, titleSafeParts parts = true ∧
      variableOf t = MVal.str (String.mk (buildVar parts)) ∧
      var_to_nc (String.mk (buildVar parts)) ≠ "time" ∧
      var_to_nc (String.mk (buildVar parts)) ≠ "region") :
    ∃ f r, write_nc df = Except.ok f ∧ read_nc f = Except.ok r ∧
      r.time_points = df.time_points ∧ (runPairs r).Perm (runPairs df) := by
  rcases write_nc_ok df K hK hne hkeys hattr hpair hvar with ⟨V, hw, hF⟩
  have hperm : ((V.flatMap (readVar ⟨df.time_points,
      sortedUniqueM (df.ts.map regionOf), V⟩)).map
      (fun t => (canonMeta t.meta, t.values))).Perm
      (df.ts.map (fun t => (canonMeta t.meta, t.values))) := by
    rw [List.map_flatMap]
    have hbig : (V.flatMap (fun nv =>
        (readVar ⟨df.time_points, sortedUniqueM (df.ts.map regionOf), V⟩ nv).map
          (fun t => (canonMeta t.meta, t.values)))).Perm
        ((dedupFirst (df.ts.map variableOf)).flatMap (fun v =>
          (df.ts.filter (fun t => decide (variableOf t = v))).map
            (fun t => (canonMeta t.meta, t.values)))) := by
      refine flatMap_perm_of_forall₂ _ _ hF ?_
      intro v nv hP
      rcases hP with ⟨s, t₀, ht₀, hv₀, hvs, hname2, hnt, hnr, hname, hattrs, hdata⟩
      exact readVar_pairs_perm df K hK hKvar hKreg hKund hkeys hattr hpair hvals
        _ rfl nv v s t₀ ht₀ hv₀ hvs hname2 hname hattrs hdata
    refine hbig.trans ?_
    rw [← List.map_flatMap]
    have hgrp : ((dedupFirst (df.ts.map variableOf)).flatMap (fun v =>
        df.ts.filter (fun t => decide (variableOf t = v)))).Perm df.ts :=
      flatMap_filter_perm variableOf (dedupFirst (df.ts.map variableOf)) df.ts
        (dedupFirst_nodup _)
        (fun t ht => (mem_dedupFirst _ _).mpr (List.mem_map_of_mem variableOf ht))
    exact hgrp.map _
  have htsne : V.flatMap (readVar ⟨df.time_points,
      sortedUniqueM (df.ts.map regionOf), V⟩) ≠ [] := by
    intro hnil
    have hlen := hperm.length_eq
    rw [hnil] at hlen
    simp only [List.map_nil, List.length_nil, List.length_map] at hlen
    exact hne (List.length_eq_zero.mp hlen.symm)
  have hg1 : ¬((sortedUniqueM (df.ts.map regionOf)).length = 1 ∧
      V.flatMap (readVar ⟨df.time_points,
        sortedUniqueM (df.ts.map regionOf), V⟩) ≠ []) :=
    fun hand => hnreg hand.1
  have hg2 : (["model", "scenario", "region", "variable", "unit"].all
      (fun k => decide (k ∈ (V.flatMap (readVar ⟨df.time_points,
        sortedUniqueM (df.ts.map regionOf), V⟩)).flatMap
        (fun t => t.meta.map Prod.fst)))) = true := by
    obtain ⟨t₁, ht₁⟩ : ∃ t, t ∈ V.flatMap (readVar ⟨df.time_points,
        sortedUniqueM (df.ts.map regionOf), V⟩) := by
      cases hts : V.flatMap (readVar ⟨df.time_points,
          sortedUniqueM (df.ts.map regionOf), V⟩) with
      | nil => exact absurd hts htsne
      | cons a l => exact ⟨a, by simp⟩
    rcases List.mem_flatMap.mp ht₁ with ⟨nv, hnvV, htnv⟩
    rcases forall₂_mem_right hF nv hnvV with ⟨v, hvvm, hP⟩
    rcases hP with ⟨s, t₀, ht₀, hv₀, hvs, hname2, hnt, hnr, hname, hattrs, hdata⟩
    rcases mem_readVar_meta _ nv t₁ htnv with ⟨rv, hmeta⟩
    have hfilt : nv.attrs.filter (fun a => !(leadsWith ['_'] a.1.data)) = nv.attrs := by
      rw [hattrs]
      apply List.filter_eq_self.mpr
      intro a ha
      rcases List.mem_map.mp ha with ⟨k', hk', rfl⟩
      rw [hKund k' (List.mem_filter.mp hk').1]
      rfl
    have hkeys₁ : t₁.meta.map Prod.fst = "region" :: "variable"
        :: K.filter (fun k => decide (k ≠ "variable") && decide (k ≠ "region")) := by
      rw [hmeta, hfilt, hattrs, List.map_cons, List.map_cons, List.map_map]
      rw [show (K.filter (fun k => decide (k ≠ "variable")
          && decide (k ≠ "region"))).map
          (Prod.fst ∘ fun k => (k, metaLookup t₀.meta k))
          = (K.filter (fun k => decide (k ≠ "variable")
              && decide (k ≠ "region"))).map id from
        List.map_congr_left (fun k _ => rfl)]
      rw [List.map_id]
    have hmem : ∀ k, k ∈ ["model", "scenario", "unit"] →
        k ∈ t₁.meta.map Prod.fst := by
      intro k hk
      rw [hkeys₁]
      refine List.mem_cons_of_mem _ (List.mem_cons_of_mem _ ?_)
      refine List.mem_filter.mpr ⟨?_, ?_⟩
      · rcases List.mem_cons.mp hk with rfl | hk2
        · exact hKmod
        · rcases List.mem_cons.mp hk2 with rfl | hk3
          · exact hKsc
          · rcases List.mem_cons.mp hk3 with rfl | hk4
            · exact hKunit
            · simp at hk4
      · rcases List.mem_cons.mp hk with rfl | hk2
        · decide
        · rcases List.mem_cons.mp hk2 with rfl | hk3
          · decide
          · rcases List.mem_cons.mp hk3 with rfl | hk4
            · decide
            · simp at hk4
    rw [List.all_eq_true]
    intro k hk
    rw [decide_eq_true_eq]
    refine List.mem_flatMap.mpr ⟨t₁, ht₁, ?_⟩
    rcases List.mem_cons.mp hk with rfl | hk2
    · exact hmem "model" (by simp)
    · rcases List.mem_cons.mp hk2 with rfl | hk3
      · exact hmem "scenario" (by simp)
      · rcases List.mem_cons.mp hk3 with rfl | hk4
        · rw [hkeys₁]; simp
        · rcases List.mem_cons.mp hk4 with rfl | hk5
          · rw [hkeys₁]; simp
          · rcases List.mem_cons.mp hk5 with rfl | hk6
            · exact hmem "unit" (by simp)
            · simp at hk6
  have hread : read_nc ⟨df.time_points, sortedUniqueM (df.ts.map regionOf), V⟩
      = Except.ok (⟨df.time_points,
          (V.flatMap (readVar ⟨df.time_points,
            sortedUniqueM (df.ts.map regionOf), V⟩)).enum.map
            (fun p => { p.2 with name := p.1 })⟩ : ScmRun) := by
    simp only [read_nc]
    rw [if_neg hg1, if_pos hg2]
  refine ⟨⟨df.time_points, sortedUniqueM (df.ts.map regionOf), V⟩, _, hw, hread,
    rfl, ?_⟩
  have h1 : runPairs (⟨df.time_points,
      (V.flatMap (readVar ⟨df.time_points,
        sortedUniqueM (df.ts.map regionOf), V⟩)).enum.map
        (fun p => { p.2 with name := p.1 })⟩ : ScmRun)
      = (V.flatMap (readVar ⟨df.time_points,
          sortedUniqueM (df.ts.map regionOf), V⟩)).map
        (fun t => (canonMeta t.meta, t.values)) := runPairs_enum _
  rw [h1]
  exact hperm

/-- C3 witness: the two-series, two-region container (variable
`Primary Energy` at regions `World` and `Asia`) writes successfully, reads
back successfully, and the read-back carries the same canonical
(metadata, values) pairs over the same time axis. -/
theorem nc_round_trip_witness :
    ∃ f r, write_nc nc2Run = Except.ok f ∧ read_nc f = Except.ok r ∧
      r.time_points = nc2Run.time_points ∧ (runPairs r).Perm (runPairs nc2Run) :=
  nc_round_trip nc2Run ["model", "scenario", "region", "variable", "unit"]
    (by decide) (by decide) (by decide) (by decide) (by decide) (by decide)
    (by decide) (by decide) (by decide) (by decide) (by decide) (by decide)
    (by decide)
    (by
      intro t ht
      have ht2 : t = (⟨0, ncMetaWorld, [2005, 2010],
          [some 1, some 2]⟩ : TimeSeries)
          ∨ t = (⟨1, ncMetaAsia, [2005, 2010],
          [some 3, some 4]⟩ : TimeSeries) := by
        simpa [nc2Run] using ht
      rcases ht2 with rfl | rfl
      · exact ⟨[[['P', 'r', 'i', 'm', 'a', 'r', 'y'],
          ['E', 'n', 'e', 'r', 'g', 'y']]], by decide, by decide, by decide,
          by decide⟩
      · exact ⟨[[['P', 'r', 'i', 'm', 'a', 'r', 'y'],
          ['E', 'n', 'e', 'r', 'g', 'y']]], by decide, by decide, by decide,
          by decide⟩)
